import Mathlib

/-!
Verification of the instl install planner and execution engine against its
natural-language specification.  The definitions below are shallow embeddings
of the Python sources:

* `src/pyinstl/indexItemTable.py`  — index items, detail rows, inheritance,
  guid translation, dependency closure, status transitions;
* `src/pyinstl/instlClient.py`     — the install planner pipeline;
* `src/pyinstl/instlInstanceSync_url.py` — sync reconciliation;
* `src/utils/parallel_run.py`      — the parallel runner;
* `src/pybatch/baseClasses.py`     — operation enter/exit contract;
* `src/configVar/configVarStack.py` — const config variables.

Machine/DB specifics (SQLAlchemy sessions, sqlite temp tables) are modelled as
pure data: tables become lists of rows, `UPDATE` becomes `List.map`,
`WHERE`-filters become `List.filter`, and the recursive dependency CTE becomes
a saturating iteration whose fixpoint is proved equal to graph reachability.
-/

/-- A row of the `IndexItemDetailRow` table (src/pyinstl/indexItemTable.py).
`os_is_active` is the denormalised activity flag maintained by the DB triggers. -/
structure IndexItemDetailRow where
  original_iid : String
  owner_iid : String
  os_id : Nat
  detail_name : String
  detail_value : String
  generation : Nat
  tag : Option String
  os_is_active : Bool
deriving DecidableEq, Repr

/-- A row of the `IndexItemRow` table: an install identifier with its
planning status and ignore flag. -/
structure IndexItemRow where
  iid : String
  install_status : Int
  ignore : Bool
deriving DecidableEq, Repr

/-- The relational store backing `IndexItemsTable`: the item table plus the
detail table. -/
structure ItemsDB where
  items : List IndexItemRow
  details : List IndexItemDetailRow
deriving DecidableEq, Repr

/-- `IndexItemsTable.install_status` dictionary:
`{"none": 0, "main": 1, "update": 2, "depend": 3, "remove": -1}`. -/
def install_status_of : String → Int
  | "none" => 0
  | "main" => 1
  | "update" => 2
  | "depend" => 3
  | "remove" => -1
  | _ => 0

/-- The active `depends` edges of the detail table: the pairs
`(owner_iid, detail_value)` of rows with `detail_name = 'depends'` and
`os_is_active = 1`, exactly the join used by the recursive CTE in
`IndexItemsTable.get_recursive_dependencies`. -/
def dependsEdges (details : List IndexItemDetailRow) : List (String × String) :=
  details.filterMap fun d =>
    if d.detail_name = "depends" ∧ d.os_is_active = true then
      some (d.owner_iid, d.detail_value)
    else none

/-- One round of the recursive CTE: keep everything found so far and add the
`detail_value` of every active `depends` row whose `owner_iid` was already
found (new values only, so a saturated state is literally a fixed point). -/
def stepDeps (edges : List (String × String)) (cur : List String) : List String :=
  cur ++ edges.filterMap fun e =>
    if e.1 ∈ cur ∧ ¬ e.2 ∈ cur then some e.2 else none

/-- The least fixed point of `stepDeps` from `seed`: the semantics of the
`WITH RECURSIVE find_dependants` query.  `edges.length + 1` rounds suffice
because each non-saturated round adds at least one of the at most
`edges.length` possible targets (proved in `depClosure_saturated`). -/
def depClosure (edges : List (String × String)) (seed : List String) : List String :=
  (stepDeps edges)^[edges.length + 1] seed

/-- `IndexItemsTable.get_recursive_dependencies(look_for_status)`: transitive
closure over active `depends` details starting from every item whose
`install_status` is `look_for_status` and whose `ignore` is 0. -/
def get_recursive_dependencies (db : ItemsDB) (look_for_status : Int) : List String :=
  depClosure (dependsEdges db.details)
    ((db.items.filter fun r =>
        r.install_status = look_for_status ∧ r.ignore = false).map (·.iid))

/-- The per-row effect of `set_ignore_iids`' `UPDATE`. -/
def setIgnoreRow (iid_list : List String) (r : IndexItemRow) : IndexItemRow :=
  if r.iid ∈ iid_list then { r with ignore := true } else r

/-- `IndexItemsTable.set_ignore_iids`: `UPDATE IndexItemRow SET ignore=1
WHERE iid IN iid_list`. -/
def set_ignore_iids (db : ItemsDB) (iid_list : List String) : ItemsDB :=
  { db with items := db.items.map (setIgnoreRow iid_list) }

/-- The per-row effect of `change_status_of_iids_to_another_status`' `UPDATE`. -/
def changeStatusRow (old_status new_status : Int) (iid_list : List String)
    (r : IndexItemRow) : IndexItemRow :=
  if r.install_status = old_status ∧ r.iid ∈ iid_list ∧ r.ignore = false then
    { r with install_status := new_status }
  else r

/-- `IndexItemsTable.change_status_of_iids_to_another_status`:
`UPDATE IndexItemRow SET install_status=new WHERE install_status=old AND
iid IN iid_list AND ignore = 0`. -/
def change_status_of_iids_to_another_status (db : ItemsDB)
    (old_status new_status : Int) (iid_list : List String) : ItemsDB :=
  { db with items := db.items.map (changeStatusRow old_status new_status iid_list) }

/-- `IndexItemsTable.get_iids_by_status(min_status, max_status)`:
`SELECT iid WHERE min <= install_status <= max AND ignore = 0`. -/
def get_iids_by_status (db : ItemsDB) (min_status max_status : Int) : List String :=
  (db.items.filter fun r =>
      min_status ≤ r.install_status ∧ r.install_status ≤ max_status ∧
        r.ignore = false).map (·.iid)

/-- `InstlClient.calculate_all_install_items`: mark ignored iids, promote the
main cohort `none→main`, promote the closure of `main` `none→depend`, promote
the update cohort `none→update`, promote the closure of `update`
`none→depend`, and read back the items with status in `[main, depend]`. -/
def calculate_all_install_items (db : ItemsDB)
    (ignored_iids main_iids update_iids : List String) : ItemsDB × List String :=
  let db1 := set_ignore_iids db ignored_iids
  let db2 := change_status_of_iids_to_another_status db1
      (install_status_of "none") (install_status_of "main") main_iids
  let main_iids_and_dependents := get_recursive_dependencies db2 (install_status_of "main")
  let db3 := change_status_of_iids_to_another_status db2
      (install_status_of "none") (install_status_of "depend") main_iids_and_dependents
  let db4 := change_status_of_iids_to_another_status db3
      (install_status_of "none") (install_status_of "update") update_iids
  let update_iids_and_dependents := get_recursive_dependencies db4 (install_status_of "update")
  let db5 := change_status_of_iids_to_another_status db4
      (install_status_of "none") (install_status_of "depend") update_iids_and_dependents
  (db5, get_iids_by_status db5 (install_status_of "main") (install_status_of "depend"))

/-- Reachability along active `depends` details: the specification-side notion
of "reachable over active `depends`" used to state the planner claims.  It is
the reflexive-transitive closure of `dependsEdges`. -/
inductive ReachDep (edges : List (String × String)) : String → String → Prop
  | refl (x : String) : ReachDep edges x x
  | tail {a b c : String} : ReachDep edges a b → (b, c) ∈ edges → ReachDep edges a c

/-- `IndexItemsTable.not_inherit_details = ("name", "inherit")`: detail names
never copied to inheritors. -/
def not_inherit_details : List String := ["name", "inherit"]

/-- `IndexItemsTable.get_original_details_values_for_active_iid`: detail
values authored at `iid` (`original_iid = iid`) with the given name, active
OS only, in insertion order. -/
def get_original_details_values_for_active_iid
    (details : List IndexItemDetailRow) (iid detail_name : String) : List String :=
  (details.filter fun d =>
      d.original_iid = iid ∧ d.detail_name = detail_name ∧ d.os_is_active = true).map
    (·.detail_value)

/-- `IndexItemsTable.get_resolved_details_for_active_iid`: all rows owned by
`iid` (original and inherited) whose OS is active, in insertion order. -/
def get_resolved_details_for_active_iid
    (details : List IndexItemDetailRow) (iid : String) : List IndexItemDetailRow :=
  details.filter fun d => d.owner_iid = iid ∧ d.os_is_active = true

/-- `IndexItemsTable.get_resolved_details_value_for_active_iid`: the values of
the rows owned by `iid` with the given detail name, active OS only. -/
def get_resolved_details_value_for_active_iid
    (details : List IndexItemDetailRow) (iid detail_name : String) : List String :=
  (details.filter fun d =>
      d.owner_iid = iid ∧ d.detail_name = detail_name ∧ d.os_is_active = true).map
    (·.detail_value)

/-- An `IndexItemRow` as seen by `resolve_inheritance`: only the iid and the
one-shot `inherit_resolved` flag matter there. -/
structure InhItem where
  iid : String
  inherit_resolved : Bool
deriving DecidableEq, Repr

/-- The state threaded through inheritance resolution: the item table (with
its `inherit_resolved` flags) and the detail table. -/
structure InhState where
  items : List InhItem
  details : List IndexItemDetailRow
deriving DecidableEq, Repr

/-- The copied detail row constructed inside
`IndexItemsTable.resolve_item_inheritance`:
`IndexItemDetailRow(original_iid=d.original_iid, owner_iid=child,
os_id=d.os_id, detail_name=d.detail_name, detail_value=d.detail_value,
generation=d.generation+1)`.  The constructor call passes no `tag`, so the
copy's tag is NULL.  `os_is_active` is not passed either; it is maintained by
the DB triggers — modelled from the spec invariant "for every detail row:
`os_is_active ⇔ os_id ∈ active_os_set`", so the copy, having the same
`os_id` as the source row, gets the same activity flag. -/
def inheritedCopy (child_iid : String) (d : IndexItemDetailRow) : IndexItemDetailRow :=
  { original_iid := d.original_iid
    owner_iid := child_iid
    os_id := d.os_id
    detail_name := d.detail_name
    detail_value := d.detail_value
    generation := d.generation + 1
    tag := none
    os_is_active := d.os_is_active }

/-- `IndexItemsTable.get_index_item`: first item row with the given iid. -/
def get_index_item (items : List InhItem) (iid : String) : Option InhItem :=
  items.find? fun it => it.iid = iid

/-- Setting `item.inherit_resolved = True` on the row with the given iid. -/
def markInheritResolved (items : List InhItem) (iid : String) : List InhItem :=
  items.map fun it => if it.iid = iid then { it with inherit_resolved := true } else it

/-- The body of the `for original_iid in iids_to_inherit_from` loop of
`IndexItemsTable.resolve_item_inheritance`: look the parent up, recursively
resolve it if not yet resolved (`recur` is the recursive call), then copy
every active resolved detail of the parent — except `name` and `inherit` —
into `iid` with `generation+1`. -/
def inheritFromParent (recur : InhState → String → InhState) (iid : String)
    (st : InhState) (p : String) : InhState :=
  match get_index_item st.items p with
  | none => st  -- "inherit from non existing" is only printed, not fatal
  | some sub =>
    let st2 := if sub.inherit_resolved then st else recur st p
    let copied := (get_resolved_details_for_active_iid st2.details p).filterMap
      fun d =>
        if d.detail_name ∈ not_inherit_details then none
        else some (inheritedCopy iid d)
    { st2 with details := st2.details ++ copied }

/-- `IndexItemsTable.resolve_item_inheritance`: run `inheritFromParent` for
each `inherit` parent of `iid` (in authored order), then mark the item
resolved.  The Python recursion has no explicit bound (a cyclic `inherit`
graph makes it recurse forever and crash); `fuel` bounds the recursion depth,
and any fuel of at least the number of items is enough for acyclic inputs. -/
def resolve_item_inheritance (fuel : Nat) (st : InhState) (iid : String) : InhState :=
  match fuel with
  | 0 => st
  | fuel + 1 =>
    let parents := get_original_details_values_for_active_iid st.details iid "inherit"
    let st1 := parents.foldl
      (inheritFromParent (fun st p => resolve_item_inheritance fuel st p) iid) st
    { st1 with items := markInheritResolved st1.items iid }

/-- `IndexItemsTable.resolve_inheritance`: resolve every not-yet-resolved
item, in table order.  The `inherit_resolved` flag is re-read from the live
state (the ORM objects mutate in place). -/
def resolve_inheritance (st : InhState) : InhState :=
  st.items.foldl
    (fun acc it =>
      match get_index_item acc.items it.iid with
      | none => acc
      | some cur =>
        if cur.inherit_resolved then acc
        else resolve_item_inheritance (st.items.length + 1) acc it.iid)
    st

/-- The inherit-ancestor relation authored in the initial detail table:
`InheritAncestor details x o` holds when `o` is reachable from `x` along
`inherit` details (reflexively).  Claim C3's "the ancestor or a transitive
ancestor" is stated with this relation. -/
inductive InheritAncestor (details : List IndexItemDetailRow) : String → String → Prop
  | refl (x : String) : InheritAncestor details x x
  | step {x p o : String} :
      p ∈ get_original_details_values_for_active_iid details x "inherit" →
      InheritAncestor details p o → InheritAncestor details x o

/-- The OS names recognised as keys of `IndexItemsTable.os_names_to_num`. -/
inductive OsName
  | common | Mac | Mac32 | Mac64 | Win | Win32 | Win64
deriving DecidableEq, Repr

/-- `IndexItemsTable.os_names_to_num`:
`common 0, Mac 1, Mac32 2, Mac64 3, Win 4, Win32 5, Win64 6`. -/
def os_names_to_num : OsName → Nat
  | .common => 0
  | .Mac => 1
  | .Mac32 => 2
  | .Mac64 => 3
  | .Win => 4
  | .Win32 => 5
  | .Win64 => 6

/-- The check `detail_name in IndexItemsTable.os_names_to_num` of
`read_item_details_from_node`: a key string is an OS key iff it parses here. -/
def osNameOfString : String → Option OsName
  | "common" => some .common
  | "Mac" => some .Mac
  | "Mac32" => some .Mac32
  | "Mac64" => some .Mac64
  | "Win" => some .Win
  | "Win32" => some .Win32
  | "Win64" => some .Win64
  | _ => none

/-- The textual OS name (used to build the `Mac/…`, `Win/…` path prefixes). -/
def osNameString : OsName → String
  | .common => "common"
  | .Mac => "Mac"
  | .Mac32 => "Mac32"
  | .Mac64 => "Mac64"
  | .Win => "Win"
  | .Win32 => "Win32"
  | .Win64 => "Win64"

/-- A raw yaml scalar as `read_item_details_from_node` sees it: its string
value and its yaml tag (`!file`, `!dir`, … or a non-`!` default tag). -/
structure YScalar where
  value : String
  ytag : String
deriving DecidableEq, Repr

/-- A raw yaml node of the index: either a list of scalar lines (the values of
one detail) or a mapping (the item itself, an OS sub-map, or `actions`).  The
reader iterates raw key/value pairs, so duplicate keys are kept. -/
inductive YamlNode
  | scalars (lines : List YScalar)
  | mapping (entries : List (String × YamlNode))
deriving Repr

/-- `{'Mac32': 'Mac32', 'Mac64': 'Mac64', 'Win32': 'Win32',
'Win64': 'Win64'}.get(the_os, os_group[1])` — the `os_id` given to a
materialised relative `install_sources` row: the most specific applicable OS
(the authored OS when it is already 32/64-bit specific, otherwise the group's
main OS). -/
def itemDetailOsFor (the_os group_main : OsName) : OsName :=
  match the_os with
  | .Mac32 => .Mac32
  | .Mac64 => .Mac64
  | .Win32 => .Win32
  | .Win64 => .Win64
  | _ => group_main

/-- `{'Mac32': 'Mac', 'Mac64': 'Mac', 'Win32': 'Win',
'Win64': 'Win'}.get(the_os, os_group[1])` — the OS-group name prefixed to a
relative `install_sources` path. -/
def pathPrefixOsFor (the_os group_main : OsName) : OsName :=
  match the_os with
  | .Mac32 => .Mac
  | .Mac64 => .Mac
  | .Win32 => .Win
  | .Win64 => .Win
  | _ => group_main

/-- The Mac OS group `('common', 'Mac', 'Mac32', 'Mac64')`. -/
def macOsGroup : List OsName := [.common, .Mac, .Mac32, .Mac64]

/-- The Win OS group `('common', 'Win', 'Win32', 'Win64')`. -/
def winOsGroup : List OsName := [.common, .Win, .Win32, .Win64]

/-- The row built for one OS group in the relative `install_sources` branch of
`read_item_details_from_node`: value `"<group>/<path>"`, `os_id` the most
specific applicable OS. -/
def relativeSourceRow (the_iid : String) (the_os group_main : OsName)
    (value : String) (tag : Option String) : IndexItemDetailRow :=
  { original_iid := the_iid
    owner_iid := the_iid
    os_id := os_names_to_num (itemDetailOsFor the_os group_main)
    detail_name := "install_sources"
    detail_value := osNameString (pathPrefixOsFor the_os group_main) ++ "/" ++ value
    generation := 0
    tag := tag
    os_is_active := false }

/-- The body of the `for details_line in detail_node[1]` loop of
`read_item_details_from_node`, for a single scalar line: tag defaulting
(`!dir` for sources without an explicit `!` tag), guid lower-casing, and the
`install_sources` absolute/relative materialisation.  The `for os_group in
(mac_group, win_group)` loop is unrolled into its two iterations.  Rows are
created outside any session, so `os_is_active` starts false (the activity
flag is set later by `activate`). -/
def readDetailLine (the_iid : String) (the_os : OsName) (detail_name : String)
    (line : YScalar) : List IndexItemDetailRow :=
  let tag0 : Option String := if line.ytag.startsWith "!" then some line.ytag else none
  let tag : Option String :=
    if (detail_name = "install_sources" ∨ detail_name = "previous_sources") ∧ tag0 = none
    then some "!dir" else tag0
  let value : String := if detail_name = "guid" then line.value.toLower else line.value
  if detail_name = "install_sources" then
    if value.startsWith "/" then
      -- absolute path: stored with the leading '/' stripped
      [{ original_iid := the_iid, owner_iid := the_iid,
         os_id := os_names_to_num the_os, detail_name := detail_name,
         detail_value := value.drop 1, generation := 0, tag := tag,
         os_is_active := false }]
    else
      (if the_os ∈ macOsGroup then [relativeSourceRow the_iid the_os .Mac value tag] else [])
        ++ (if the_os ∈ winOsGroup then [relativeSourceRow the_iid the_os .Win value tag] else [])
  else
    [{ original_iid := the_iid, owner_iid := the_iid,
       os_id := os_names_to_num the_os, detail_name := detail_name,
       detail_value := value, generation := 0, tag := tag,
       os_is_active := false }]

/-- `IndexItemsTable.read_item_details_from_node`: walk the raw key/value
pairs of the item node; an OS key recurses with that OS, `actions` recurses
transparently, any other key materialises its scalar lines via
`readDetailLine`.  `fuel` bounds the nesting depth (the concrete yaml nesting
is at most item → OS map → actions map → lines). -/
def read_item_details_from_node (fuel : Nat) (the_iid : String) (the_os : OsName) :
    YamlNode → List IndexItemDetailRow
  | .scalars _ => []
  | .mapping entries =>
    match fuel with
    | 0 => []
    | fuel + 1 =>
      entries.foldl
        (fun acc e =>
          match osNameOfString e.1 with
          | some os' => acc ++ read_item_details_from_node fuel the_iid os' e.2
          | none =>
            if e.1 = "actions" then
              acc ++ read_item_details_from_node fuel the_iid the_os e.2
            else
              match e.2 with
              | .scalars lines =>
                acc ++ lines.foldl (fun a ln => a ++ readDetailLine the_iid the_os e.1 ln) []
              | .mapping _ => acc)
        []

/-- `IndexItemsTable.iids_from_guids`: the input guids are deduplicated
(`list(set(guid_list))`) and seeded into a temp table; every detail row with
`detail_name='guid'` whose value is a seeded guid contributes a `(guid, iid)`
pair; guids whose group still has a single (NULL-iid) row are the orphans, and
the distinct non-NULL iids are the translation.  The final `ORDER BY iid` /
`GROUP BY guid` only order the already-determined sets; the embedding keeps
first-occurrence order instead (the claims about this function are about the
sets). -/
def iids_from_guids (details : List IndexItemDetailRow) (guid_list : List String) :
    List String × List String :=
  if guid_list = [] then ([], [])
  else
    let seeds := guid_list.dedup
    let matched_rows := details.filter fun d =>
      d.detail_name = "guid" ∧ d.detail_value ∈ seeds
    let orphaned_guids := seeds.filter fun g => ¬ ∃ m ∈ matched_rows, m.detail_value = g
    let translated_iids := (matched_rows.map (·.owner_iid)).dedup
    (translated_iids, orphaned_guids)

/-- `InstlClient.resolve_special_build_in_iids`: split the requested iids into
a main cohort and an update cohort, expanding the synthetic build-in iids.
Python manipulates `set` objects, so the result is a pair of `Finset`s.
Repair also updates, so `__REPAIR_INSTALLED_ITEMS__` takes precedence over
`__UPDATE_INSTALLED_ITEMS__` (the `elif`). -/
def resolve_special_build_in_iids (details : List IndexItemDetailRow)
    (special_build_in_iids : List String) (iids : List String) :
    Finset String × Finset String :=
  let iids_set := iids.toFinset
  let found := special_build_in_iids.toFinset ∩ iids.toFinset
  if 0 < found.card then
    let iids_set := iids_set \ special_build_in_iids.toFinset
    let pair :=
      if "__REPAIR_INSTALLED_ITEMS__" ∈ found then
        (iids_set ∪ (get_resolved_details_value_for_active_iid details
            "__REPAIR_INSTALLED_ITEMS__" "depends").toFinset, (∅ : Finset String))
      else if "__UPDATE_INSTALLED_ITEMS__" ∈ found then
        (iids_set, (get_resolved_details_value_for_active_iid details
            "__UPDATE_INSTALLED_ITEMS__" "depends").toFinset \ iids_set)
      else (iids_set, ∅)
    let pair :=
      if "__ALL_GUIDS_IID__" ∈ found then
        (pair.1 ∪ (get_resolved_details_value_for_active_iid details
            "__ALL_GUIDS_IID__" "depends").toFinset, pair.2)
      else pair
    if "__ALL_ITEMS_IID__" ∈ found then
      (pair.1 ∪ (get_resolved_details_value_for_active_iid details
          "__ALL_ITEMS_IID__" "depends").toFinset, pair.2)
    else pair
  else (iids_set, ∅)

/-- A file leaf of the remote info-map tree as
`filter_out_already_synced_items` walks it (`walk_items(what="file")`):
its path parts, flags, revision and the `user_data` mark. -/
structure WorkFile where
  path : List String
  flags : String
  rev : Nat
  user_data : Bool
deriving DecidableEq, Repr

/-- A file entry of the have-map (`have_map.get_item_at_path`). -/
structure HaveFile where
  path : List String
  flags : String
  rev : Nat
deriving DecidableEq, Repr

/-- `set_user_data(True, "all")` restricted to the file leaves. -/
def setAllUserDataTrue (work : List WorkFile) : List WorkFile :=
  work.map fun f => { f with user_data := true }

/-- `have_map.get_item_at_path(path)` on the flattened file list. -/
def findHave (have_map : List HaveFile) (p : List String) : Option HaveFile :=
  have_map.find? fun h => h.path = p

/-- `have_item.set_flags(...)`; `have_item.set_last_rev(...)`: overwrite the
metadata of the entry at `p` in place. -/
def updateHaveEntry (have_map : List HaveFile) (p : List String)
    (flags : String) (rev : Nat) : List HaveFile :=
  have_map.map fun h => if h.path = p then { h with flags := flags, rev := rev } else h

/-- The `for need_item in walk_items(what="file")` loop of
`InstlInstanceSync_url.filter_out_already_synced_items`: files missing from
the have map are added to it (`new_item_at_path`); a file whose have revision
equals the needed revision is marked `user_data = False`; a strictly smaller
and a strictly larger have revision both overwrite the have entry with the
needed revision and flags (the source spells the two comparisons out with
identical bodies — a downgrade is performed like an upgrade). -/
def reconcileFiles : List WorkFile → List HaveFile → List WorkFile × List HaveFile
  | [], have_map => ([], have_map)
  | f :: rest, have_map =>
    match findHave have_map f.path with
    | none =>
      let have_map' := have_map ++ [{ path := f.path, flags := f.flags, rev := f.rev }]
      let r := reconcileFiles rest have_map'
      (f :: r.1, r.2)
    | some have_item =>
      if have_item.rev = f.rev then
        let r := reconcileFiles rest have_map
        ({ f with user_data := false } :: r.1, r.2)
      else
        let have_map' :=
          if have_item.rev < f.rev then updateHaveEntry have_map f.path f.flags f.rev
          else if f.rev < have_item.rev then updateHaveEntry have_map f.path f.flags f.rev
          else have_map  -- unreachable: the two revisions differ
        let r := reconcileFiles rest have_map'
        (f :: r.1, r.2)

/-- `filter_out_already_synced_items` on the file leaves: mark all files
`True`, run the reconciliation loop, then drop the files marked `False`
(`recursive_remove_depth_first(is_user_data_false_or_dir_empty)` removes a
file iff `user_data == False`; directory pruning does not affect files). -/
def filter_out_already_synced_items (work : List WorkFile) (have_map : List HaveFile) :
    List WorkFile × List HaveFile :=
  let r := reconcileFiles (setAllUserDataTrue work) have_map
  (r.1.filter fun f => f.user_data = true, r.2)

/-- One partition of `run_processes_in_parallel` (the commands between two
`wait` barriers).  Concurrency is abstracted: a partition is the list of its
children's exit statuses in the order in which the `run_process` threads
observe them (`ThreadPoolExecutor` joins all of them before the `with` block
exits, so every launched child is polled to completion even when a peer has
already failed).  Each thread that observes a nonzero status writes it to the
global `exit_val` and raises, so within a partition the last observed failure
wins. -/
def runPartition (exit_val : Int) (statuses : List Int) : Int × Bool :=
  statuses.foldl
    (fun acc status => if status ≠ 0 then (status, true) else acc)
    (exit_val, false)

/-- The partition loop of `run_processes_in_parallel`: partitions run in
order; the first partition that raised makes the handler call
`killall_and_exit` with the current `exit_val`; when every partition finishes
cleanly, `exit_val` is set to 0 and the process exits 0. -/
def runPartitions : Int → List (List Int) → Int
  | _, [] => 0
  | exit_val, p :: rest =>
    let r := runPartition exit_val p
    if r.2 then r.1 else runPartitions r.1 rest

/-- `utils.run_processes_in_parallel(commands, …)` with the commands already
partitioned on the `wait` sentinel (`utils.partition_list(commands,
lambda c: c[0] == "wait")` — `partition_list` itself is not under `src/`) and
each command abstracted to its child's exit status; `exit_val` starts at 0. -/
def run_processes_in_parallel (partitions : List (List Int)) : Int :=
  runPartitions 0 partitions

/-- The exit code the claim asserts: the maximum of all children's exit
codes, all-zero mapping to zero. -/
def maxChildExit (partitions : List (List Int)) : Int :=
  (partitions.flatten).foldl max 0

/-- The exit code the source actually produces: scanning the partitions in
order, the last-observed nonzero status of the first partition that contains
one; 0 when every child everywhere exits 0. -/
def lastNonzero (statuses : List Int) : Option Int :=
  statuses.foldl (fun acc status => if status ≠ 0 then some status else acc) none

/-- Spec-side description of `run_processes_in_parallel`'s exit code, used by
the amended claim C4. -/
def firstFailingPartitionExit : List (List Int) → Int
  | [] => 0
  | p :: rest =>
    match lastNonzero p with
    | some v => v
    | none => firstFailingPartitionExit rest

/-- A Python exception as `PythonBatchCommandBase.__exit__` sees it: its
class name and the optional `raising_obj` attribute (`None` models "attribute
not set"; objects are identified by an id). -/
structure PyExc where
  excClassName : String
  raisingObj : Option Nat
deriving DecidableEq, Repr

/-- The per-operation policy fields of `PythonBatchCommandBase` that
`__exit__` consults, plus the object's identity (for `raising_obj = self`). -/
structure BatchOp where
  selfId : Nat
  ignore_all_errors : Bool
  exceptions_to_ignore : List String
deriving DecidableEq, Repr

/-- What one `__exit__` call does: the returned suppress flag (`True` makes
the `with` statement swallow the exception), the stage stack afterwards, the
exception object afterwards, and whether `exit_self` ran. -/
structure ExitOutcome where
  suppress : Bool
  stack : List Nat
  exc : Option PyExc
  exitSelfRan : Bool
deriving DecidableEq, Repr

/-- `PythonBatchCommandBase.should_ignore__exit__exception`:
`exc_type in self.exceptions_to_ignore`. -/
def should_ignore_exit_exception (op : BatchOp) (exc : Option PyExc) : Bool :=
  match exc with
  | some e => e.excClassName ∈ op.exceptions_to_ignore
  | none => false

/-- The `setattr(exc_val, "raising_obj", self)` of the non-suppressing branch:
attach only when the attribute is not already set. -/
def attachRaisingObj (op : BatchOp) (exc : Option PyExc) : Option PyExc :=
  match exc with
  | some e =>
    if e.raisingObj = none then some { e with raisingObj := some op.selfId } else some e
  | none => none

/-- `PythonBatchCommandBase.__exit__` (timing stamps are not modelled): decide
suppression, attach `raising_obj` on the propagate path, call `exit_self` on
every path, and pop the stage stack only when suppressing.  The stack is a
Python list used with `append`/`pop`, so the top is the last element. -/
def opExit (op : BatchOp) (stage_stack : List Nat) (exc : Option PyExc) : ExitOutcome :=
  if exc = none ∨ op.ignore_all_errors = true then
    { suppress := true, stack := stage_stack.dropLast, exc := exc, exitSelfRan := true }
  else if should_ignore_exit_exception op exc then
    -- log_result(WARNING, …) then suppress
    { suppress := true, stack := stage_stack.dropLast, exc := exc, exitSelfRan := true }
  else
    { suppress := false, stack := stage_stack, exc := attachRaisingObj op exc,
      exitSelfRan := true }

/-- One scope of the `ConfigVarStack`: variable name to its list of string
values, in insertion order. -/
abbrev VarScope := List (String × List String)

/-- Lookup inside one scope (`var_name in level_var_list` / indexing). -/
def lookupScope (sc : VarScope) (var_name : String) : Option (List String) :=
  (sc.find? fun e => e.1 = var_name).map (·.2)

/-- `ConfigVarStack.__getitem__`: walk the scope stack top-down (the top is
the last element of `_ConfigVarList_objs`) and return the first hit;
`None` models the `KeyError`. -/
def lookupVar (stack : List VarScope) (var_name : String) : Option (List String) :=
  stack.reverse.findSome? fun sc => lookupScope sc var_name

/-- `if var_name.endswith(variable_name_endings_to_normpath)` then normalise
each value with `os.path.normpath`.  The suffix set and the normalisation
function live in `configVar/configVarOne.py`, which is not under `src/`;
both are taken as parameters. -/
def normalizeIfPathVar (suffixes : List String) (normpath : String → String)
    (var_name : String) (values : List String) : List String :=
  if suffixes.any (fun suf => var_name.endsWith suf) then values.map normpath
  else values

/-- Modelled from the spec: `configVarList.ConfigVarList
.add_const_config_variable` (not under `src/`) creates the const variable in
the top scope; per the spec's design note the stored list is normalised on
insert exactly as the comparison side normalises ("ensure both sides
normalise identically"). -/
def addConstToTopScope (suffixes : List String) (normpath : String → String)
    (stack : List VarScope) (var_name : String) (values : List String) : List VarScope :=
  stack.dropLast ++
    [stack.getLastD [] ++ [(var_name, normalizeIfPathVar suffixes normpath var_name values)]]

/-- The "Const variable … already defined" exception of
`ConfigVarStack.add_const_config_variable` (the spec's `ConstRedefined`). -/
inductive ConstErr
  | constRedefined
deriving DecidableEq, Repr

/-- `ConfigVarStack.add_const_config_variable`: look the name up across the
stack; when found, normalise the incoming values (for normpath-suffixed
names) and compare with the stored list — a mismatch raises, a match leaves
everything unchanged; when absent (`KeyError`), create the const variable in
the top scope. -/
def add_const_config_variable (suffixes : List String) (normpath : String → String)
    (stack : List VarScope) (var_name : String) (values : List String) :
    Except ConstErr (List VarScope) :=
  match lookupVar stack var_name with
  | some stored =>
    if stored = normalizeIfPathVar suffixes normpath var_name values then
      Except.ok stack
    else Except.error ConstErr.constRedefined
  | none => Except.ok (addConstToTopScope suffixes normpath stack var_name values)

/-- `InstlClient.get_direct_sync_status_from_indicator`: `False` for a `None`
indicator; otherwise resolve and parse the indicator
(`str_to_bool_int(ResolveStrToStr(…))` — both helpers are not under `src/`
and are taken as one abstract `resolveParse` that may raise), and a bare
`except: pass` keeps the `False` default on any exception. -/
def get_direct_sync_status_from_indicator (resolveParse : String → Except String Bool)
    (direct_sync_indicator : Option String) : Bool :=
  match direct_sync_indicator with
  | none => false
  | some s =>
    match resolveParse s with
    | Except.ok b => b
    | Except.error _ => false

/-- An active `depends` detail row, for concrete examples. -/
def mkDependsRow (owner value : String) : IndexItemDetailRow :=
  { original_iid := owner, owner_iid := owner, os_id := 0,
    detail_name := "depends", detail_value := value, generation := 0,
    tag := none, os_is_active := true }

/-- A freshly read item row (status `none`, not ignored), for examples. -/
def mkFreshItem (iid : String) : IndexItemRow :=
  { iid := iid, install_status := 0, ignore := false }

/-- Concrete index: items `A`, `B` where `A depends: B` (active). -/
def c1ExampleDB : ItemsDB :=
  { items := [mkFreshItem "A", mkFreshItem "B"],
    details := [mkDependsRow "A" "B"] }

/-- Concrete inheritance input: `A` inherits from `B`; `B` owns one
`install_folders` detail. -/
def c3ExampleState : InhState :=
  { items := [{ iid := "A", inherit_resolved := false },
              { iid := "B", inherit_resolved := false }],
    details :=
      [{ original_iid := "A", owner_iid := "A", os_id := 0,
         detail_name := "inherit", detail_value := "B", generation := 0,
         tag := none, os_is_active := true },
       { original_iid := "B", owner_iid := "B", os_id := 0,
         detail_name := "install_folders", detail_value := "/apps/B",
         generation := 0, tag := none, os_is_active := true }] }

/-- The tag stored for an `install_sources` / `previous_sources` line by the
`read_item_details_from_node` preamble: the yaml `!` tag when present,
otherwise the `!dir` default. -/
def parsedSourceTag (ytag : String) : Option String :=
  if ytag.startsWith "!" then some ytag else some "!dir"

/-- An `install_sources` detail row with the given `os_id` and value (used to
state what `readDetailLine` materialises). -/
def singleSourceRow (the_iid : String) (os_id : Nat) (v : String)
    (tag : Option String) : IndexItemDetailRow :=
  { original_iid := the_iid, owner_iid := the_iid, os_id := os_id,
    detail_name := "install_sources", detail_value := v, generation := 0,
    tag := tag, os_is_active := false }

/-- During inheritance resolution the detail table only grows, and no added
row is named `name` or `inherit` (those are never copied). -/
def InhDetailsExtended (st0 st : InhState) : Prop :=
  ∃ suf, st.details = st0.details ++ suf ∧
    ∀ r ∈ suf, r.detail_name ∉ not_inherit_details

/-- The per-row invariant of claim C3, relative to the initial state `st0`:
every row either is an original row, or is a copy — with `generation` one
more than its source row, a detail name outside `{name, inherit}`, the same
`original_iid` as its source, and an owner that directly `inherit`s from the
source row's owner; and every row's `original_iid` is an inherit-ancestor of
its `owner_iid`. -/
def InhRowInv (st0 st : InhState) : Prop :=
  ∀ r ∈ st.details,
    (r ∈ st0.details ∨
      (0 < r.generation ∧ r.detail_name ∉ not_inherit_details ∧
        ∃ s ∈ st.details,
          s.owner_iid ∈ get_original_details_values_for_active_iid st0.details
            r.owner_iid "inherit" ∧
          r = inheritedCopy r.owner_iid s)) ∧
    InheritAncestor st0.details r.owner_iid r.original_iid

/-! ## Theorems -/

theorem lastNonzero_foldl (l : List Int) (a : Option Int) :
    l.foldl (fun acc status => if status ≠ 0 then some status else acc) a =
      (lastNonzero l).elim a some := by
  induction l generalizing a with
  | nil => simp [lastNonzero]
  | cons s rest ih =>
    simp only [List.foldl_cons]
    rw [ih]
    have h1 : lastNonzero (s :: rest) =
        (lastNonzero rest).elim (if s ≠ 0 then some s else none) some := by
      simp only [lastNonzero, List.foldl_cons]
      exact ih _
    rw [h1]
    cases lastNonzero rest <;> by_cases hs : s = 0 <;> simp [hs]

theorem runPartition_foldl (l : List Int) (p : Int × Bool) :
    l.foldl (fun acc status => if status ≠ 0 then (status, true) else acc) p =
      (lastNonzero l).elim p (fun v => (v, true)) := by
  induction l generalizing p with
  | nil => simp [lastNonzero]
  | cons s rest ih =>
    simp only [List.foldl_cons]
    rw [ih]
    have h1 : lastNonzero (s :: rest) =
        (lastNonzero rest).elim (if s ≠ 0 then some s else none) some := by
      simp only [lastNonzero, List.foldl_cons]
      exact lastNonzero_foldl rest _
    rw [h1]
    cases lastNonzero rest <;> by_cases hs : s = 0 <;> simp [hs]

theorem runPartitions_spec (parts : List (List Int)) :
    ∀ ev, runPartitions ev parts = firstFailingPartitionExit parts := by
  induction parts with
  | nil => intro ev; rfl
  | cons p rest ih =>
    intro ev
    have h : runPartition ev p = (lastNonzero p).elim (ev, false) (fun v => (v, true)) :=
      runPartition_foldl p (ev, false)
    simp only [runPartitions, firstFailingPartitionExit, h]
    cases lastNonzero p <;> simp [ih]

/-- C4 (counterexample): the runner's exit code is not the maximum of the
children's exit codes.  In the single partition `[7, 5]` — two children
failing with 7 and then 5, in that observation order — every thread that sees
a nonzero status overwrites the global `exit_val`, so the process exits with
5 while the maximum is 7. -/
theorem c4_counterexample_exit_code_not_max :
    ¬ ∀ partitions : List (List Int),
        run_processes_in_parallel partitions = maxChildExit partitions := by
  intro h
  have h75 := h [[7, 5]]
  have e1 : run_processes_in_parallel [[7, 5]] = 5 := by decide
  have e2 : maxChildExit [[7, 5]] = 7 := by decide
  rw [e1, e2] at h75
  exact absurd h75 (by decide)

/-- C4 (amended): partitions are consumed whole and in order (each
partition's children are all polled to completion before the loop moves on —
the barrier), and the runner's exit code is the last-observed nonzero status
of the first partition containing one, 0 when every child everywhere exits 0.
It equals `max` only when the failing partition has at most one failing
child. -/
theorem c4_exit_code_last_failure_of_first_failing_partition
    (partitions : List (List Int)) :
    run_processes_in_parallel partitions = firstFailingPartitionExit partitions :=
  runPartitions_spec partitions 0

/-- C5: on every exit path `exit_self` runs; the exception is suppressed and
the operation popped from the stage stack exactly when there is no exception,
or `ignore_all_errors` is set, or the exception class is in
`exceptions_to_ignore`; otherwise `raising_obj = self` is attached (only when
not already set), the stack is left un-popped and the exception propagates
(`__exit__` returns `False`). -/
theorem c5_exit_contract (op : BatchOp) (stage_stack : List Nat) (exc : Option PyExc) :
    (opExit op stage_stack exc).exitSelfRan = true ∧
    ((opExit op stage_stack exc).suppress = true ↔
      (exc = none ∨ op.ignore_all_errors = true ∨
        ∃ e, exc = some e ∧ e.excClassName ∈ op.exceptions_to_ignore)) ∧
    ((opExit op stage_stack exc).suppress = true →
      (opExit op stage_stack exc).stack = stage_stack.dropLast ∧
      (opExit op stage_stack exc).exc = exc) ∧
    ((opExit op stage_stack exc).suppress = false →
      (opExit op stage_stack exc).stack = stage_stack ∧
      ∃ e, exc = some e ∧
        (opExit op stage_stack exc).exc =
          some { e with raisingObj := some (e.raisingObj.getD op.selfId) }) := by
  simp only [opExit]
  split_ifs with h1 h2
  · refine ⟨rfl, ?_, fun _ => ⟨rfl, rfl⟩, fun hf => by simp at hf⟩
    simp only [true_iff]
    rcases h1 with h | h
    · exact Or.inl h
    · exact Or.inr (Or.inl h)
  · refine ⟨rfl, ?_, fun _ => ⟨rfl, rfl⟩, fun hf => by simp at hf⟩
    simp only [true_iff]
    cases exc with
    | none => exact Or.inl rfl
    | some e =>
      refine Or.inr (Or.inr ⟨e, rfl, ?_⟩)
      simpa [should_ignore_exit_exception] using h2
  · push_neg at h1
    obtain ⟨hne, hia⟩ := h1
    refine ⟨rfl, ?_, fun ht => by simp at ht, fun _ => ⟨rfl, ?_⟩⟩
    · simp only [false_iff]
      push_neg
      refine ⟨hne, by simpa using hia, ?_⟩
      intro e he hmem
      apply h2
      simp [should_ignore_exit_exception, he, hmem]
    · cases exc with
      | none => exact absurd rfl hne
      | some e =>
        obtain ⟨cn, ro⟩ := e
        refine ⟨⟨cn, ro⟩, rfl, ?_⟩
        cases ro <;> simp [attachRaisingObj]

/-- C5 witness: a concrete non-suppressing exit — an exception whose class is
not ignored — keeps the stage stack and attaches `raising_obj = self`. -/
theorem c5_exit_contract_witness :
    (opExit { selfId := 9, ignore_all_errors := false, exceptions_to_ignore := ["FileNotFoundError"] }
        [1, 2] (some { excClassName := "ValueError", raisingObj := none })).suppress = false ∧
    (opExit { selfId := 9, ignore_all_errors := false, exceptions_to_ignore := ["FileNotFoundError"] }
        [1, 2] (some { excClassName := "ValueError", raisingObj := none })).stack = [1, 2] := by
  have h := c5_exit_contract
    { selfId := 9, ignore_all_errors := false, exceptions_to_ignore := ["FileNotFoundError"] }
    [1, 2] (some { excClassName := "ValueError", raisingObj := none })
  have hs : (opExit { selfId := 9, ignore_all_errors := false, exceptions_to_ignore := ["FileNotFoundError"] }
      [1, 2] (some { excClassName := "ValueError", raisingObj := none })).suppress = false := by
    by_contra hc
    have := (h.2.1.mp (by revert hc; decide))
    rcases this with h' | h' | ⟨e, he, hmem⟩
    · exact Option.noConfusion h'
    · exact Bool.noConfusion h'
    · rw [Option.some.injEq] at he
      subst he
      simp at hmem
  exact ⟨hs, (h.2.2.2 hs).1⟩

/-- C10: the direct-sync indicator defaults to off — the result is `True`
exactly when an indicator is present and its resolution/parse succeeds with a
true value; a missing indicator or any exception during resolution yields
`False` (the bare `except: pass`), so the function never raises. -/
theorem c10_direct_sync_defaults_off
    (resolveParse : String → Except String Bool) (ind : Option String) :
    get_direct_sync_status_from_indicator resolveParse ind = true ↔
      ∃ s, ind = some s ∧ resolveParse s = Except.ok true := by
  cases ind with
  | none => simp [get_direct_sync_status_from_indicator]
  | some s =>
    simp only [get_direct_sync_status_from_indicator]
    cases h : resolveParse s with
    | ok b => cases b <;> simp [h]
    | error e => simp [h]

/-- C9: when the main install targets contain both
`__REPAIR_INSTALLED_ITEMS__` and `__UPDATE_INSTALLED_ITEMS__`, repair takes
precedence: the depends of `__REPAIR_INSTALLED_ITEMS__` all land in the main
cohort, the update cohort is empty, and an iid covered by both cohort
expansions ends up in the main cohort only. -/
theorem c9_repair_wins_over_update
    (details : List IndexItemDetailRow) (special_build_in_iids iids : List String)
    (hrep_sp : "__REPAIR_INSTALLED_ITEMS__" ∈ special_build_in_iids)
    (hrep_in : "__REPAIR_INSTALLED_ITEMS__" ∈ iids)
    (hupd_in : "__UPDATE_INSTALLED_ITEMS__" ∈ iids) :
    (resolve_special_build_in_iids details special_build_in_iids iids).2 = ∅ ∧
    (∀ d ∈ get_resolved_details_value_for_active_iid details
        "__REPAIR_INSTALLED_ITEMS__" "depends",
      d ∈ (resolve_special_build_in_iids details special_build_in_iids iids).1) ∧
    (∀ d ∈ get_resolved_details_value_for_active_iid details
        "__REPAIR_INSTALLED_ITEMS__" "depends",
      d ∈ get_resolved_details_value_for_active_iid details
          "__UPDATE_INSTALLED_ITEMS__" "depends" →
        d ∈ (resolve_special_build_in_iids details special_build_in_iids iids).1 ∧
        d ∉ (resolve_special_build_in_iids details special_build_in_iids iids).2) := by
  have hmem : "__REPAIR_INSTALLED_ITEMS__" ∈
      special_build_in_iids.toFinset ∩ iids.toFinset :=
    Finset.mem_inter.mpr ⟨List.mem_toFinset.mpr hrep_sp, List.mem_toFinset.mpr hrep_in⟩
  have hcard : 0 < (special_build_in_iids.toFinset ∩ iids.toFinset).card :=
    Finset.card_pos.mpr ⟨_, hmem⟩
  have hsnd : (resolve_special_build_in_iids details special_build_in_iids iids).2 = ∅ := by
    simp only [resolve_special_build_in_iids, if_pos hcard, if_pos hmem]
    split_ifs <;> rfl
  have hfst : ∀ d ∈ get_resolved_details_value_for_active_iid details
      "__REPAIR_INSTALLED_ITEMS__" "depends",
      d ∈ (resolve_special_build_in_iids details special_build_in_iids iids).1 := by
    intro d hd
    simp only [resolve_special_build_in_iids, if_pos hcard, if_pos hmem]
    have hd' : d ∈ (get_resolved_details_value_for_active_iid details
        "__REPAIR_INSTALLED_ITEMS__" "depends").toFinset := List.mem_toFinset.mpr hd
    split_ifs <;> simp [Finset.mem_union, hd']
  refine ⟨hsnd, hfst, fun d hd _ => ⟨hfst d hd, ?_⟩⟩
  rw [hsnd]
  exact Finset.not_mem_empty d

/-- C9 witness: with both synthetic iids requested and an iid `X` that both
repair and update depend on, `X` lands in the main cohort and the update
cohort is empty. -/
theorem c9_repair_wins_over_update_witness :
    "X" ∈ (resolve_special_build_in_iids
        [mkDependsRow "__REPAIR_INSTALLED_ITEMS__" "X",
         mkDependsRow "__UPDATE_INSTALLED_ITEMS__" "X"]
        ["__REPAIR_INSTALLED_ITEMS__", "__UPDATE_INSTALLED_ITEMS__"]
        ["__REPAIR_INSTALLED_ITEMS__", "__UPDATE_INSTALLED_ITEMS__"]).1 ∧
    "X" ∉ (resolve_special_build_in_iids
        [mkDependsRow "__REPAIR_INSTALLED_ITEMS__" "X",
         mkDependsRow "__UPDATE_INSTALLED_ITEMS__" "X"]
        ["__REPAIR_INSTALLED_ITEMS__", "__UPDATE_INSTALLED_ITEMS__"]
        ["__REPAIR_INSTALLED_ITEMS__", "__UPDATE_INSTALLED_ITEMS__"]).2 :=
  (c9_repair_wins_over_update
      [mkDependsRow "__REPAIR_INSTALLED_ITEMS__" "X",
       mkDependsRow "__UPDATE_INSTALLED_ITEMS__" "X"]
      ["__REPAIR_INSTALLED_ITEMS__", "__UPDATE_INSTALLED_ITEMS__"]
      ["__REPAIR_INSTALLED_ITEMS__", "__UPDATE_INSTALLED_ITEMS__"]
      (by decide) (by decide) (by decide)).2.2 "X" (by decide) (by decide)

theorem lookupVar_addConstToTopScope (suffixes : List String) (normpath : String → String)
    (stack : List VarScope) (var_name : String) (values : List String)
    (h : lookupVar stack var_name = none) :
    lookupVar (addConstToTopScope suffixes normpath stack var_name values) var_name =
      some (normalizeIfPathVar suffixes normpath var_name values) := by
  have hall : ∀ sc ∈ stack, lookupScope sc var_name = none := by
    rw [lookupVar, List.findSome?_eq_none_iff] at h
    intro sc hsc
    exact h sc (List.mem_reverse.mpr hsc)
  have hlast : lookupScope (stack.getLastD []) var_name = none := by
    cases stack with
    | nil => rfl
    | cons a as =>
      refine hall _ ?_
      rw [List.getLastD_eq_getLast?, List.getLast?_eq_getLast (a :: as) (by simp),
        Option.getD_some]
      exact List.getLast_mem _
  have hfind : (stack.getLastD []).find? (fun e => e.1 = var_name) = none := by
    rw [lookupScope] at hlast
    exact Option.map_eq_none'.mp hlast
  have htop : lookupScope (stack.getLastD [] ++
      [(var_name, normalizeIfPathVar suffixes normpath var_name values)]) var_name =
      some (normalizeIfPathVar suffixes normpath var_name values) := by
    rw [lookupScope, List.find?_append, hfind]
    simp
  rw [addConstToTopScope, lookupVar, List.reverse_append, List.reverse_singleton,
    List.singleton_append, List.findSome?_cons, htop]

/-- C6: a const variable can be re-declared with the same value list, which
succeeds and leaves the stored value unchanged, while re-declaring it with a
different value list raises `ConstRedefined`; for a name ending in a
configured normpath suffix the incoming values are path-normalised before
the comparison (and the stored side was normalised identically on insert). -/
theorem c6_add_const_redefinition (suffixes : List String) (normpath : String → String)
    (stack : List VarScope) (X : String) (v v' : List String)
    (hfresh : lookupVar stack X = none) :
    (add_const_config_variable suffixes normpath stack X v =
       Except.ok (addConstToTopScope suffixes normpath stack X v)) ∧
    (add_const_config_variable suffixes normpath
        (addConstToTopScope suffixes normpath stack X v) X v =
       Except.ok (addConstToTopScope suffixes normpath stack X v)) ∧
    (normalizeIfPathVar suffixes normpath X v' ≠ normalizeIfPathVar suffixes normpath X v →
      add_const_config_variable suffixes normpath
          (addConstToTopScope suffixes normpath stack X v) X v' =
        Except.error ConstErr.constRedefined) ∧
    (suffixes.any (fun suf => X.endsWith suf) = false → v' ≠ v →
      add_const_config_variable suffixes normpath
          (addConstToTopScope suffixes normpath stack X v) X v' =
        Except.error ConstErr.constRedefined) := by
  have hl := lookupVar_addConstToTopScope suffixes normpath stack X v hfresh
  have h3 : normalizeIfPathVar suffixes normpath X v' ≠
      normalizeIfPathVar suffixes normpath X v →
      add_const_config_variable suffixes normpath
          (addConstToTopScope suffixes normpath stack X v) X v' =
        Except.error ConstErr.constRedefined := by
    intro hne
    simp [add_const_config_variable, hl, Ne.symm hne]
  refine ⟨?_, ?_, h3, ?_⟩
  · rw [add_const_config_variable, hfresh]
  · simp [add_const_config_variable, hl]
  · intro hsuf hne
    refine h3 ?_
    simpa [normalizeIfPathVar, hsuf] using hne

/-- C6 witness: with no normpath suffix configured, on a fresh stack the
first `add_const("CONST_X", ["a"])` stores the value; repeating it with the
same list succeeds and a second call with `["b"]` is refused. -/
theorem c6_add_const_redefinition_witness :
    (add_const_config_variable [] (fun s => s)
        (addConstToTopScope [] (fun s => s) [[]] "CONST_X" ["a"]) "CONST_X" ["a"] =
      Except.ok (addConstToTopScope [] (fun s => s) [[]] "CONST_X" ["a"])) ∧
    (add_const_config_variable [] (fun s => s)
        (addConstToTopScope [] (fun s => s) [[]] "CONST_X" ["a"]) "CONST_X" ["b"] =
      Except.error ConstErr.constRedefined) :=
  ⟨(c6_add_const_redefinition [] (fun s => s) [[]] "CONST_X" ["a"] ["b"] rfl).2.1,
   (c6_add_const_redefinition [] (fun s => s) [[]] "CONST_X" ["a"] ["b"] rfl).2.2.2
     rfl (by decide)⟩

/-- C8: `iids_from_guids` returns the owner iids of the `guid` detail rows
whose value occurs among the input guids, and as orphans exactly the input
guids carried by no `guid` detail row; duplicated input guids do not change
the result (`list(set(guid_list))`). -/
theorem c8_iids_from_guids (details : List IndexItemDetailRow) (guid_list : List String) :
    (∀ g, g ∈ (iids_from_guids details guid_list).2 ↔
      g ∈ guid_list ∧ ¬ ∃ d ∈ details, d.detail_name = "guid" ∧ d.detail_value = g) ∧
    (∀ i, i ∈ (iids_from_guids details guid_list).1 ↔
      ∃ d ∈ details, d.detail_name = "guid" ∧ d.detail_value ∈ guid_list ∧
        d.owner_iid = i) ∧
    (∀ g, g ∈ guid_list →
      iids_from_guids details (g :: guid_list) = iids_from_guids details guid_list) := by
  refine ⟨?_, ?_, ?_⟩
  · intro g
    by_cases hnil : guid_list = []
    · subst hnil
      simp [iids_from_guids]
    · simp only [iids_from_guids, if_neg hnil]
      simp only [List.mem_filter, List.mem_dedup, decide_eq_true_eq]
      constructor
      · rintro ⟨hg, hno⟩
        refine ⟨hg, ?_⟩
        rintro ⟨d, hd, hn, hv⟩
        exact hno ⟨d, ⟨hd, hn, by rw [hv]; exact hg⟩, hv⟩
      · rintro ⟨hg, hno⟩
        refine ⟨hg, ?_⟩
        rintro ⟨d, ⟨hd, hn, _⟩, hv⟩
        exact hno ⟨d, hd, hn, hv⟩
  · intro i
    by_cases hnil : guid_list = []
    · subst hnil
      simp [iids_from_guids]
    · simp only [iids_from_guids, if_neg hnil]
      simp only [List.mem_dedup, List.mem_map, List.mem_filter, decide_eq_true_eq]
      constructor
      · rintro ⟨d, ⟨hd, hn, hv⟩, hi⟩
        exact ⟨d, hd, hn, hv, hi⟩
      · rintro ⟨d, hd, hn, hv, hi⟩
        exact ⟨d, ⟨hd, hn, hv⟩, hi⟩
  · intro g hg
    have hne : guid_list ≠ [] := List.ne_nil_of_mem hg
    simp only [iids_from_guids, if_neg hne, List.dedup_cons_of_mem hg]
    simp

/-- C7: an `install_sources` line materialises as follows.  A relative path
authored under OS `common` yields exactly two rows — `Mac/<path>` with the
`Mac` os id and `Win/<path>` with the `Win` os id; under any other OS it
yields exactly one row, the path prefixed with the OS-group name (`Mac` or
`Win`) and the os id of the most specific applicable OS (`Mac32/Mac64` and
`Win32/Win64` keep their own os id).  An absolute path (leading `/`) yields
one row whose value is the path with the leading `/` stripped. -/
theorem c7_install_sources_materialisation (the_iid : String) (ln : YScalar) :
    (readDetailLine the_iid OsName.common "install_sources" ln =
      if ln.value.startsWith "/" then
        [singleSourceRow the_iid 0 (ln.value.drop 1) (parsedSourceTag ln.ytag)]
      else
        [singleSourceRow the_iid 1 ("Mac/" ++ ln.value) (parsedSourceTag ln.ytag),
         singleSourceRow the_iid 4 ("Win/" ++ ln.value) (parsedSourceTag ln.ytag)]) ∧
    (readDetailLine the_iid OsName.Mac "install_sources" ln =
      if ln.value.startsWith "/" then
        [singleSourceRow the_iid 1 (ln.value.drop 1) (parsedSourceTag ln.ytag)]
      else [singleSourceRow the_iid 1 ("Mac/" ++ ln.value) (parsedSourceTag ln.ytag)]) ∧
    (readDetailLine the_iid OsName.Mac32 "install_sources" ln =
      if ln.value.startsWith "/" then
        [singleSourceRow the_iid 2 (ln.value.drop 1) (parsedSourceTag ln.ytag)]
      else [singleSourceRow the_iid 2 ("Mac/" ++ ln.value) (parsedSourceTag ln.ytag)]) ∧
    (readDetailLine the_iid OsName.Mac64 "install_sources" ln =
      if ln.value.startsWith "/" then
        [singleSourceRow the_iid 3 (ln.value.drop 1) (parsedSourceTag ln.ytag)]
      else [singleSourceRow the_iid 3 ("Mac/" ++ ln.value) (parsedSourceTag ln.ytag)]) ∧
    (readDetailLine the_iid OsName.Win "install_sources" ln =
      if ln.value.startsWith "/" then
        [singleSourceRow the_iid 4 (ln.value.drop 1) (parsedSourceTag ln.ytag)]
      else [singleSourceRow the_iid 4 ("Win/" ++ ln.value) (parsedSourceTag ln.ytag)]) ∧
    (readDetailLine the_iid OsName.Win32 "install_sources" ln =
      if ln.value.startsWith "/" then
        [singleSourceRow the_iid 5 (ln.value.drop 1) (parsedSourceTag ln.ytag)]
      else [singleSourceRow the_iid 5 ("Win/" ++ ln.value) (parsedSourceTag ln.ytag)]) ∧
    (readDetailLine the_iid OsName.Win64 "install_sources" ln =
      if ln.value.startsWith "/" then
        [singleSourceRow the_iid 6 (ln.value.drop 1) (parsedSourceTag ln.ytag)]
      else [singleSourceRow the_iid 6 ("Win/" ++ ln.value) (parsedSourceTag ln.ytag)]) := by
  by_cases habs : ln.value.startsWith "/" <;>
    by_cases ht : ln.ytag.startsWith "!" <;>
      refine ⟨?_, ?_, ?_, ?_, ?_, ?_, ?_⟩ <;>
        simp [readDetailLine, relativeSourceRow, singleSourceRow, parsedSourceTag,
          itemDetailOsFor, pathPrefixOsFor, macOsGroup, winOsGroup, osNameString,
          os_names_to_num, habs, ht]

theorem findHave_append_ne (h : List HaveFile) (e : HaveFile) (p : List String)
    (hne : e.path ≠ p) : findHave (h ++ [e]) p = findHave h p := by
  rw [findHave, findHave, List.find?_append]
  cases hf : h.find? fun x => x.path = p with
  | some v => simp
  | none => simp [List.find?_singleton, hne]

theorem findHave_append_self (h : List HaveFile) (e : HaveFile)
    (hnone : findHave h e.path = none) : findHave (h ++ [e]) e.path = some e := by
  rw [findHave] at hnone
  rw [findHave, List.find?_append, hnone]
  simp [List.find?_singleton]

theorem findHave_update_ne (h : List HaveFile) (q p : List String)
    (fl : String) (rv : Nat) (hne : q ≠ p) :
    findHave (updateHaveEntry h q fl rv) p = findHave h p := by
  induction h with
  | nil => rfl
  | cons e rest ih =>
    by_cases he : e.path = q <;> by_cases hp : e.path = p
    · exact absurd (he.symm.trans hp) hne
    · simpa [updateHaveEntry, findHave, List.find?_cons, he, hp, hne, Ne.symm hne] using ih
    · simp [updateHaveEntry, findHave, List.find?_cons, he, hp, hne, Ne.symm hne]
    · simpa [updateHaveEntry, findHave, List.find?_cons, he, hp, hne, Ne.symm hne] using ih

theorem findHave_update_self (h : List HaveFile) (q : List String)
    (fl : String) (rv : Nat) (e : HaveFile) (he : findHave h q = some e) :
    findHave (updateHaveEntry h q fl rv) q = some { path := q, flags := fl, rev := rv } := by
  induction h with
  | nil => exact absurd he (by simp [findHave])
  | cons x rest ih =>
    by_cases hx : x.path = q
    · simp [updateHaveEntry, findHave, List.find?_cons, hx]
    · rw [findHave, List.find?_cons] at he
      simp only [hx, decide_eq_false, Bool.false_eq_true, if_false] at he
      have he' : findHave rest q = some e := by
        simpa [findHave] using he
      simpa [updateHaveEntry, findHave, List.find?_cons, hx] using ih he'

theorem paths_updateHaveEntry (h : List HaveFile) (q : List String)
    (fl : String) (rv : Nat) :
    (updateHaveEntry h q fl rv).map (·.path) = h.map (·.path) := by
  rw [updateHaveEntry, List.map_map]
  apply List.map_congr_left
  intro a _
  by_cases hx : a.path = q <;> simp [hx]

theorem reconcileFiles_fst_paths (ws : List WorkFile) (h : List HaveFile) :
    ((reconcileFiles ws h).1).map (·.path) = ws.map (·.path) := by
  induction ws generalizing h with
  | nil => rfl
  | cons f rest ih =>
    rw [reconcileFiles]
    cases hf : findHave h f.path with
    | none => simp [ih]
    | some e =>
      by_cases hrev : e.rev = f.rev
      · simp [hrev, ih]
      · simp [hrev, ih]

theorem reconcileFiles_snd_untouched (ws : List WorkFile) (h : List HaveFile)
    (p : List String) (hp : p ∉ ws.map (·.path)) :
    findHave (reconcileFiles ws h).2 p = findHave h p := by
  induction ws generalizing h with
  | nil => rfl
  | cons f rest ih =>
    have hpf : f.path ≠ p := by
      intro hc
      exact hp (by simp [hc])
    have hprest : p ∉ rest.map (·.path) := fun hc => hp (by simp [hc])
    rw [reconcileFiles]
    cases hf : findHave h f.path with
    | none =>
      simp only []
      rw [ih _ hprest, findHave_append_ne _ _ _ hpf]
    | some e =>
      by_cases hrev : e.rev = f.rev
      · simp only [if_pos hrev]
        exact ih _ hprest
      · simp only [if_neg hrev]
        rcases Nat.lt_or_ge e.rev f.rev with hlt | hge
        · rw [if_pos hlt, ih _ hprest, findHave_update_ne _ _ _ _ _ hpf]
        · have hgt : f.rev < e.rev := Nat.lt_of_le_of_ne hge (fun hc => hrev hc.symm)
          rw [if_neg (Nat.not_lt.mpr hge), if_pos hgt, ih _ hprest,
            findHave_update_ne _ _ _ _ _ hpf]

theorem exists_rev_update_ne (h : List HaveFile) (q : List String) (fl : String)
    (rv : Nat) (p : List String) (rv' : Nat) (hne : q ≠ p) :
    (∃ e ∈ updateHaveEntry h q fl rv, e.path = p ∧ e.rev = rv') ↔
      (∃ e ∈ h, e.path = p ∧ e.rev = rv') := by
  constructor
  · rintro ⟨e, he, hp, hr⟩
    rw [updateHaveEntry, List.mem_map] at he
    obtain ⟨e0, he0, rfl⟩ := he
    by_cases hq : e0.path = q
    · rw [if_pos hq] at hp hr
      have hp' : e0.path = p := hp
      exact absurd (hq.symm.trans hp') hne
    · rw [if_neg hq] at hp hr
      exact ⟨e0, he0, hp, hr⟩
  · rintro ⟨e, he, hp, hr⟩
    refine ⟨e, ?_, hp, hr⟩
    rw [updateHaveEntry, List.mem_map]
    exact ⟨e, he, by rw [if_neg (fun hc => hne (hc.symm.trans hp))]⟩


theorem exists_path_filter_cons (g0 : WorkFile) (X : List WorkFile) (p : List String)
    (hne : g0.path ≠ p) :
    (∃ g ∈ (g0 :: X).filter (fun g => g.user_data = true), g.path = p) ↔
      (∃ g ∈ X.filter (fun g => g.user_data = true), g.path = p) := by
  rw [List.filter_cons]
  split
  · constructor
    · rintro ⟨g, hg, hgp⟩
      rcases List.mem_cons.mp hg with rfl | hg'
      · exact absurd hgp hne
      · exact ⟨g, hg', hgp⟩
    · rintro ⟨g, hg, hgp⟩
      exact ⟨g, List.mem_cons_of_mem _ hg, hgp⟩
  · exact Iff.rfl

theorem c2_reconcile_core (ws : List WorkFile) :
    ∀ (h : List HaveFile),
      (∀ w ∈ ws, w.user_data = true) →
      ((ws.map (·.path)).Nodup) → ((h.map (·.path)).Nodup) →
      ∀ f ∈ ws,
        ((¬ ∃ g ∈ (reconcileFiles ws h).1.filter (fun g => g.user_data = true),
            g.path = f.path) ↔
          (∃ e ∈ h, e.path = f.path ∧ e.rev = f.rev)) ∧
        ((¬ ∃ e ∈ h, e.path = f.path ∧ e.rev = f.rev) →
          findHave (reconcileFiles ws h).2 f.path =
            some { path := f.path, flags := f.flags, rev := f.rev }) ∧
        ((∃ e ∈ h, e.path = f.path ∧ e.rev = f.rev) →
          findHave (reconcileFiles ws h).2 f.path = findHave h f.path) := by
  induction ws with
  | nil => intro h _ _ _ f hf; exact absurd hf (List.not_mem_nil f)
  | cons f0 rest ih =>
    intro h hud hnw hnh f hf
    have hud0 : f0.user_data = true := hud f0 (List.mem_cons_self f0 rest)
    rw [List.map_cons] at hnw
    obtain ⟨hf0nin, hnrest⟩ := List.nodup_cons.mp hnw
    have hud' : ∀ w ∈ rest, w.user_data = true :=
      fun w hw => hud w (List.mem_cons_of_mem _ hw)
    rcases List.mem_cons.mp hf with rfl | hfr
    · -- f is the head being processed
      cases hfind : findHave h f.path with
      | none =>
        have hnoex : ¬ ∃ e ∈ h, e.path = f.path ∧ e.rev = f.rev := by
          rintro ⟨e, he, hp, _⟩
          have := List.find?_eq_none.mp hfind e he
          simp [hp] at this
        simp only [reconcileFiles, hfind]
        refine ⟨⟨?_, fun hex => absurd hex hnoex⟩, ?_, fun hex => absurd hex hnoex⟩
        · intro hno
          exact absurd ⟨f, List.mem_filter.mpr
            ⟨List.mem_cons_self _ _, by simp [hud0]⟩, rfl⟩ hno
        · intro _
          rw [reconcileFiles_snd_untouched rest _ f.path hf0nin]
          exact findHave_append_self h _ hfind
      | some e =>
        have heme : e ∈ h := List.mem_of_find?_eq_some hfind
        have hpe : e.path = f.path := by simpa using List.find?_some hfind
        by_cases hrev : e.rev = f.rev
        · -- same revision in the have map: marked False, hence removed;
          -- the have map is left as it is
          simp only [reconcileFiles, hfind, if_pos hrev]
          refine ⟨⟨fun _ => ⟨e, heme, hpe, hrev⟩, ?_⟩,
            fun hno => absurd ⟨e, heme, hpe, hrev⟩ hno, ?_⟩
          · intro _
            rintro ⟨g, hg, hgp⟩
            have hg' := List.mem_filter.mp hg
            rcases List.mem_cons.mp hg'.1 with rfl | hgrest
            · simp at hg'
            · have hgin : g.path ∈ ((reconcileFiles rest h).1).map (·.path) :=
                List.mem_map_of_mem _ hgrest
              rw [reconcileFiles_fst_paths] at hgin
              exact hf0nin (by simpa [hgp] using hgin)
          · intro _
            rw [reconcileFiles_snd_untouched rest h f.path hf0nin]
            exact hfind
        · -- different revision (older or newer): kept for download and the
          -- have entry is overwritten with the remote flags and revision
          have hupd : (if e.rev < f.rev then updateHaveEntry h f.path f.flags f.rev
              else if f.rev < e.rev then updateHaveEntry h f.path f.flags f.rev
              else h) = updateHaveEntry h f.path f.flags f.rev := by
            rcases Nat.lt_or_ge e.rev f.rev with hlt | hge
            · rw [if_pos hlt]
            · rw [if_neg (Nat.not_lt.mpr hge),
                if_pos (Nat.lt_of_le_of_ne hge (fun hc => hrev hc.symm))]
          have hnoex : ¬ ∃ e' ∈ h, e'.path = f.path ∧ e'.rev = f.rev := by
            rintro ⟨e', he', hp', hr'⟩
            have he'e : e' = e := List.inj_on_of_nodup_map hnh he' heme
              (by rw [hp', hpe])
            exact hrev (by rw [← he'e, hr'])
          simp only [reconcileFiles, hfind, if_neg hrev, hupd]
          refine ⟨⟨?_, fun hex => absurd hex hnoex⟩, ?_, fun hex => absurd hex hnoex⟩
          · intro hno
            exact absurd ⟨f, List.mem_filter.mpr
              ⟨List.mem_cons_self _ _, by simp [hud0]⟩, rfl⟩ hno
          · intro _
            rw [reconcileFiles_snd_untouched rest _ f.path hf0nin]
            exact findHave_update_self h f.path f.flags f.rev e hfind
    · -- f is processed further down the list
      have hfp : f.path ∈ rest.map (·.path) := List.mem_map_of_mem _ hfr
      have hfne : f.path ≠ f0.path := fun hc => hf0nin (hc ▸ hfp)
      cases hfind : findHave h f0.path with
      | none =>
        have hf0notin : f0.path ∉ h.map (·.path) := by
          intro hc
          obtain ⟨e, he, hpe⟩ := List.mem_map.mp hc
          have := List.find?_eq_none.mp hfind e he
          simp [hpe] at this
        have hnh' : ((h.map (·.path)) ++ [f0.path]).Nodup := by
          rw [List.nodup_append]
          exact ⟨hnh, List.nodup_singleton _,
            by simpa [List.disjoint_singleton] using hf0notin⟩
        have hnh'' : (((h ++ [({ path := f0.path, flags := f0.flags, rev := f0.rev } :
            HaveFile)])).map (·.path)).Nodup := by
          rw [List.map_append]
          exact hnh'
        have core := ih (h ++ [{ path := f0.path, flags := f0.flags, rev := f0.rev }])
          hud' hnrest hnh'' f hfr
        have hexiff : (∃ e ∈ h ++ [({ path := f0.path, flags := f0.flags, rev := f0.rev } : HaveFile)], e.path = f.path ∧ e.rev = f.rev) ↔ (∃ e ∈ h, e.path = f.path ∧ e.rev = f.rev) := by
          constructor
          · rintro ⟨e, he, hp, hr⟩
            rcases List.mem_append.mp he with he' | he'
            · exact ⟨e, he', hp, hr⟩
            · rw [List.mem_singleton] at he'
              subst he'
              have hp' : f0.path = f.path := hp
              exact absurd hp'.symm hfne
          · rintro ⟨e, he, hp, hr⟩
            exact ⟨e, List.mem_append_left _ he, hp, hr⟩
        have hfh : findHave (h ++ [({ path := f0.path, flags := f0.flags, rev := f0.rev } : HaveFile)]) f.path = findHave h f.path :=
          findHave_append_ne h _ f.path (Ne.symm hfne)
        simp only [reconcileFiles, hfind]
        refine ⟨?_, ?_, ?_⟩
        · rw [not_congr (exists_path_filter_cons f0 _ f.path (Ne.symm hfne))]
          exact core.1.trans hexiff
        · intro hno
          exact core.2.1 (fun hex => hno (hexiff.mp hex))
        · intro hex
          rw [core.2.2 (hexiff.mpr hex), hfh]
      | some e =>
        by_cases hrev : e.rev = f0.rev
        · have core := ih h hud' hnrest hnh f hfr
          simp only [reconcileFiles, hfind, if_pos hrev]
          refine ⟨?_, core.2.1, core.2.2⟩
          rw [not_congr (exists_path_filter_cons { f0 with user_data := false }
            _ f.path (Ne.symm hfne))]
          exact core.1
        · have hupd : (if e.rev < f0.rev then updateHaveEntry h f0.path f0.flags f0.rev
              else if f0.rev < e.rev then updateHaveEntry h f0.path f0.flags f0.rev
              else h) = updateHaveEntry h f0.path f0.flags f0.rev := by
            rcases Nat.lt_or_ge e.rev f0.rev with hlt | hge
            · rw [if_pos hlt]
            · rw [if_neg (Nat.not_lt.mpr hge),
                if_pos (Nat.lt_of_le_of_ne hge (fun hc => hrev hc.symm))]
          have hnh' : ((updateHaveEntry h f0.path f0.flags f0.rev).map (·.path)).Nodup := by
            rw [paths_updateHaveEntry]
            exact hnh
          have core := ih (updateHaveEntry h f0.path f0.flags f0.rev)
            hud' hnrest hnh' f hfr
          have hexiff := exists_rev_update_ne h f0.path f0.flags f0.rev
            f.path f.rev (Ne.symm hfne)
          have hfh := findHave_update_ne h f0.path f.path f0.flags f0.rev (Ne.symm hfne)
          simp only [reconcileFiles, hfind, if_neg hrev, hupd]
          refine ⟨?_, ?_, ?_⟩
          · rw [not_congr (exists_path_filter_cons f0 _ f.path (Ne.symm hfne))]
            exact core.1.trans hexiff
          · intro hno
            exact core.2.1 (fun hex => hno (hexiff.mp hex))
          · intro hex
            rw [core.2.2 (hexiff.mpr hex), hfh]

/-- C2: during sync reconciliation a required file is removed from the
download set iff the have map holds it at exactly the remote revision; in
every other case (absent, strictly older, or strictly newer in the have map)
the have entry is created or overwritten with the remote file's revision and
flags — a downgrade to an older remote revision is performed like an
upgrade — while a revision-equal entry is left untouched. -/
theorem c2_filter_out_already_synced (work : List WorkFile) (have_map : List HaveFile)
    (hw : (work.map (·.path)).Nodup) (hh : (have_map.map (·.path)).Nodup) :
    ∀ f ∈ work,
      ((¬ ∃ g ∈ (filter_out_already_synced_items work have_map).1, g.path = f.path) ↔
        (∃ e ∈ have_map, e.path = f.path ∧ e.rev = f.rev)) ∧
      ((¬ ∃ e ∈ have_map, e.path = f.path ∧ e.rev = f.rev) →
        findHave (filter_out_already_synced_items work have_map).2 f.path =
          some { path := f.path, flags := f.flags, rev := f.rev }) ∧
      ((∃ e ∈ have_map, e.path = f.path ∧ e.rev = f.rev) →
        findHave (filter_out_already_synced_items work have_map).2 f.path =
          findHave have_map f.path) := by
  intro f hf
  have hpaths : (setAllUserDataTrue work).map (·.path) = work.map (·.path) := by
    rw [setAllUserDataTrue, List.map_map]
    rfl
  have hud : ∀ w ∈ setAllUserDataTrue work, w.user_data = true := by
    intro w hw'
    obtain ⟨w0, _, rfl⟩ := List.mem_map.mp hw'
    rfl
  have hw' : ((setAllUserDataTrue work).map (·.path)).Nodup := by
    rw [hpaths]
    exact hw
  have hf' : ({ f with user_data := true } : WorkFile) ∈ setAllUserDataTrue work :=
    List.mem_map_of_mem _ hf
  have core := c2_reconcile_core (setAllUserDataTrue work) have_map hud hw' hh _ hf'
  simpa [filter_out_already_synced_items] using core

/-- C2 witness: a required file at remote revision 7 that the have map holds
at revision 9 (strictly newer locally) is kept for download and its have
entry is overwritten with the remote flags and revision — the downgrade
case. -/
theorem c2_filter_out_already_synced_witness :
    findHave (filter_out_already_synced_items
        [{ path := ["Mac", "f3"], flags := "f", rev := 7, user_data := true }]
        [{ path := ["Mac", "f3"], flags := "fx", rev := 9 }]).2 ["Mac", "f3"] =
      some { path := ["Mac", "f3"], flags := "f", rev := 7 } :=
  ((c2_filter_out_already_synced
      [{ path := ["Mac", "f3"], flags := "f", rev := 7, user_data := true }]
      [{ path := ["Mac", "f3"], flags := "fx", rev := 9 }]
      (by decide) (by decide)
      { path := ["Mac", "f3"], flags := "f", rev := 7, user_data := true }
      (by decide)).2.1 (by decide))

theorem inherit_values_of_extended (st0 st : InhState) (iid : String)
    (hx : InhDetailsExtended st0 st) :
    get_original_details_values_for_active_iid st.details iid "inherit" =
      get_original_details_values_for_active_iid st0.details iid "inherit" := by
  obtain ⟨suf, hdet, hns⟩ := hx
  rw [hdet, get_original_details_values_for_active_iid,
    get_original_details_values_for_active_iid, List.filter_append]
  have hnil : suf.filter (fun d =>
      d.original_iid = iid ∧ d.detail_name = "inherit" ∧ d.os_is_active = true) = [] := by
    rw [List.filter_eq_nil_iff]
    intro d hd
    have := hns d hd
    simp only [not_inherit_details, List.mem_cons, List.mem_singleton, not_or] at this
    simp [this.2]
  rw [hnil, List.append_nil]

theorem inheritFromParent_invariant (st0 : InhState)
    (recur : InhState → String → InhState)
    (hrec : ∀ st p, InhDetailsExtended st0 st → InhRowInv st0 st →
      InhDetailsExtended st0 (recur st p) ∧ InhRowInv st0 (recur st p))
    (iid : String) (st : InhState) (p : String)
    (hp : p ∈ get_original_details_values_for_active_iid st0.details iid "inherit")
    (hx : InhDetailsExtended st0 st) (hr : InhRowInv st0 st) :
    InhDetailsExtended st0 (inheritFromParent recur iid st p) ∧
      InhRowInv st0 (inheritFromParent recur iid st p) := by
  rw [inheritFromParent]
  cases hgi : get_index_item st.items p with
  | none => exact ⟨hx, hr⟩
  | some sub =>
    obtain ⟨hx2, hr2⟩ : InhDetailsExtended st0 (if sub.inherit_resolved then st
        else recur st p) ∧ InhRowInv st0 (if sub.inherit_resolved then st
        else recur st p) := by
      by_cases hres : sub.inherit_resolved
      · rw [if_pos hres]
        exact ⟨hx, hr⟩
      · rw [if_neg hres]
        exact hrec st p hx hr
    set st2 := if sub.inherit_resolved then st else recur st p with hst2
    constructor
    · obtain ⟨suf2, hdet2, hns2⟩ := hx2
      refine ⟨suf2 ++ (get_resolved_details_for_active_iid st2.details p).filterMap
        (fun d => if d.detail_name ∈ not_inherit_details then none
          else some (inheritedCopy iid d)), ?_, ?_⟩
      · show st2.details ++ _ = st0.details ++ _
        rw [hdet2, List.append_assoc]
      · intro r hrr
        rcases List.mem_append.mp hrr with h1 | h1
        · exact hns2 r h1
        · obtain ⟨d, hd, hcopy⟩ := List.mem_filterMap.mp h1
          by_cases hni : d.detail_name ∈ not_inherit_details
          · rw [if_pos hni] at hcopy
            exact Option.noConfusion hcopy
          · rw [if_neg hni] at hcopy
            injection hcopy with hcopy
            rw [← hcopy]
            exact hni
    · intro r hrr
      have hrr' : r ∈ st2.details ++ (get_resolved_details_for_active_iid
          st2.details p).filterMap (fun d => if d.detail_name ∈ not_inherit_details
          then none else some (inheritedCopy iid d)) := hrr
      rcases List.mem_append.mp hrr' with h1 | h1
      · have hold := hr2 r h1
        refine ⟨?_, hold.2⟩
        rcases hold.1 with hcase | ⟨hg, hni, s, hs, hso, hcp⟩
        · exact Or.inl hcase
        · exact Or.inr ⟨hg, hni, s, List.mem_append_left _ hs, hso, hcp⟩
      · obtain ⟨d, hd, hcopy⟩ := List.mem_filterMap.mp h1
        by_cases hni : d.detail_name ∈ not_inherit_details
        · rw [if_pos hni] at hcopy
          exact Option.noConfusion hcopy
        · rw [if_neg hni] at hcopy
          injection hcopy with hcopy
          subst hcopy
          have hdmem := List.mem_filter.mp hd
          have hdo : d.owner_iid = p := by
            have := hdmem.2
            simp only [decide_eq_true_eq] at this
            exact this.1
          constructor
          · refine Or.inr ⟨Nat.succ_pos _, hni, d,
              List.mem_append_left _ hdmem.1, ?_, rfl⟩
            show d.owner_iid ∈ get_original_details_values_for_active_iid
              st0.details iid "inherit"
            rw [hdo]
            exact hp
          · have hanc := (hr2 d hdmem.1).2
            rw [hdo] at hanc
            exact InheritAncestor.step hp hanc

theorem resolve_item_inheritance_invariant (st0 : InhState) :
    ∀ (fuel : Nat) (st : InhState) (iid : String),
      InhDetailsExtended st0 st → InhRowInv st0 st →
      InhDetailsExtended st0 (resolve_item_inheritance fuel st iid) ∧
        InhRowInv st0 (resolve_item_inheritance fuel st iid) := by
  intro fuel
  induction fuel with
  | zero =>
    intro st iid hx hr
    exact ⟨hx, hr⟩
  | succ fuel ihf =>
    intro st iid hx hr
    have hparents : ∀ p ∈ get_original_details_values_for_active_iid st.details
        iid "inherit",
        p ∈ get_original_details_values_for_active_iid st0.details iid "inherit" := by
      rw [inherit_values_of_extended st0 st iid hx]
      exact fun p hp => hp
    have hfold : ∀ (ps : List String),
        (∀ p ∈ ps, p ∈ get_original_details_values_for_active_iid st0.details
          iid "inherit") →
        ∀ st1, InhDetailsExtended st0 st1 → InhRowInv st0 st1 →
        InhDetailsExtended st0 (ps.foldl (inheritFromParent
          (fun st p => resolve_item_inheritance fuel st p) iid) st1) ∧
        InhRowInv st0 (ps.foldl (inheritFromParent
          (fun st p => resolve_item_inheritance fuel st p) iid) st1) := by
      intro ps
      induction ps with
      | nil =>
        intro _ st1 hx1 hr1
        exact ⟨hx1, hr1⟩
      | cons p ps ihp =>
        intro hps st1 hx1 hr1
        rw [List.foldl_cons]
        have hstep := inheritFromParent_invariant st0
          (fun st p => resolve_item_inheritance fuel st p)
          (fun st2 p2 => ihf st2 p2) iid st1 p
          (hps p (List.mem_cons_self _ _)) hx1 hr1
        exact ihp (fun q hq => hps q (List.mem_cons_of_mem _ hq)) _ hstep.1 hstep.2
    have hmain := hfold _ hparents st hx hr
    have hdet_eq : (resolve_item_inheritance (fuel + 1) st iid).details =
        ((get_original_details_values_for_active_iid st.details iid "inherit").foldl
          (inheritFromParent (fun st p => resolve_item_inheritance fuel st p) iid)
          st).details := rfl
    constructor
    · obtain ⟨suf, hdet, hns⟩ := hmain.1
      exact ⟨suf, by rw [hdet_eq, hdet], hns⟩
    · intro r hrr
      rw [hdet_eq] at hrr
      have := hmain.2 r hrr
      refine ⟨?_, this.2⟩
      rcases this.1 with hcase | ⟨hg, hni, s, hs, hso, hcp⟩
      · exact Or.inl hcase
      · refine Or.inr ⟨hg, hni, s, ?_, hso, hcp⟩
        rw [hdet_eq]
        exact hs

theorem resolve_inheritance_invariant (st0 : InhState)
    (h0 : ∀ r ∈ st0.details, r.generation = 0 ∧ r.original_iid = r.owner_iid) :
    InhRowInv st0 (resolve_inheritance st0) := by
  have hstep : ∀ (acc : InhState) (it : InhItem),
      InhDetailsExtended st0 acc → InhRowInv st0 acc →
      InhDetailsExtended st0 ((fun acc it =>
        match get_index_item acc.items it.iid with
        | none => acc
        | some cur =>
          if cur.inherit_resolved then acc
          else resolve_item_inheritance (st0.items.length + 1) acc it.iid) acc it) ∧
      InhRowInv st0 ((fun acc it =>
        match get_index_item acc.items it.iid with
        | none => acc
        | some cur =>
          if cur.inherit_resolved then acc
          else resolve_item_inheritance (st0.items.length + 1) acc it.iid) acc it) := by
    intro acc it hx hr
    simp only []
    cases hgi : get_index_item acc.items it.iid with
    | none => exact ⟨hx, hr⟩
    | some cur =>
      by_cases hres : cur.inherit_resolved
      · simp only [hres, if_true]
        exact ⟨hx, hr⟩
      · simp only [Bool.not_eq_true] at hres
        simp only [hres, Bool.false_eq_true, if_false]
        exact resolve_item_inheritance_invariant st0 _ acc it.iid hx hr
  have hfold : ∀ (l : List InhItem) (acc : InhState),
      InhDetailsExtended st0 acc → InhRowInv st0 acc →
      InhDetailsExtended st0 (l.foldl (fun acc it =>
        match get_index_item acc.items it.iid with
        | none => acc
        | some cur =>
          if cur.inherit_resolved then acc
          else resolve_item_inheritance (st0.items.length + 1) acc it.iid) acc) ∧
      InhRowInv st0 (l.foldl (fun acc it =>
        match get_index_item acc.items it.iid with
        | none => acc
        | some cur =>
          if cur.inherit_resolved then acc
          else resolve_item_inheritance (st0.items.length + 1) acc it.iid) acc) := by
    intro l
    induction l with
    | nil =>
      intro acc hx hr
      exact ⟨hx, hr⟩
    | cons it l ihl =>
      intro acc hx hr
      rw [List.foldl_cons]
      have h1 := hstep acc it hx hr
      exact ihl _ h1.1 h1.2
  have hinit : InhDetailsExtended st0 st0 ∧ InhRowInv st0 st0 := by
    refine ⟨⟨[], (List.append_nil _).symm, by simp⟩, ?_⟩
    intro r hr
    refine ⟨Or.inl hr, ?_⟩
    rw [(h0 r hr).2]
    exact InheritAncestor.refl _
  exact (hfold st0.items st0 hinit.1 hinit.2).2

/-- C3: after `resolve_inheritance`, every detail row either is an original
row, or was copied from a source row that is still present: the copy's
`owner_iid` is the inheriting item, its `generation` is one more than the
source row's (hence strictly positive), its `detail_name` is neither `name`
nor `inherit`, its `original_iid` is the source row's `original_iid`, and the
source row's owner is a direct `inherit` parent of the copy's owner; moreover
every row's `original_iid` is the item itself or a transitive
inherit-ancestor of its `owner_iid` — the iid where the detail was
authored. -/
theorem c3_resolve_inheritance_invariant (st0 : InhState)
    (h0 : ∀ r ∈ st0.details, r.generation = 0 ∧ r.original_iid = r.owner_iid) :
    ∀ r ∈ (resolve_inheritance st0).details,
      (r ∈ st0.details ∨
        (0 < r.generation ∧ r.detail_name ∉ not_inherit_details ∧
          ∃ s ∈ (resolve_inheritance st0).details,
            s.owner_iid ∈ get_original_details_values_for_active_iid st0.details
              r.owner_iid "inherit" ∧
            r = inheritedCopy r.owner_iid s)) ∧
      InheritAncestor st0.details r.owner_iid r.original_iid :=
  resolve_inheritance_invariant st0 h0

/-- C3 witness: in the concrete index where `A` inherits from `B`, the copied
`install_folders` row materialises at generation 1 with `original_iid = B`,
and `B` is indeed an inherit-ancestor of `A`. -/
theorem c3_resolve_inheritance_invariant_witness :
    InheritAncestor c3ExampleState.details "A" "B" :=
  (c3_resolve_inheritance_invariant c3ExampleState (by decide)
    { original_iid := "B", owner_iid := "A", os_id := 0,
      detail_name := "install_folders", detail_value := "/apps/B",
      generation := 1, tag := none, os_is_active := true }
    (by decide)).2

theorem install_status_of_none : install_status_of "none" = 0 := rfl

theorem install_status_of_main : install_status_of "main" = 1 := rfl

theorem install_status_of_update : install_status_of "update" = 2 := rfl

theorem install_status_of_depend : install_status_of "depend" = 3 := rfl

theorem mem_stepDeps (edges : List (String × String)) (cur : List String) (x : String) :
    x ∈ stepDeps edges cur ↔ x ∈ cur ∨ ∃ e ∈ edges, e.1 ∈ cur ∧ e.2 = x := by
  rw [stepDeps]
  simp only [List.mem_append, List.mem_filterMap]
  constructor
  · rintro (hx | ⟨e, he, hsome⟩)
    · exact Or.inl hx
    · by_cases hc : e.1 ∈ cur ∧ ¬ e.2 ∈ cur
      · rw [if_pos hc] at hsome
        injection hsome with hsome
        exact Or.inr ⟨e, he, hc.1, hsome⟩
      · rw [if_neg hc] at hsome
        exact Option.noConfusion hsome
  · rintro (hx | ⟨e, he, h1, h2⟩)
    · exact Or.inl hx
    · by_cases hx : x ∈ cur
      · exact Or.inl hx
      · refine Or.inr ⟨e, he, ?_⟩
        rw [if_pos ⟨h1, by rw [h2]; exact hx⟩, h2]

theorem subset_stepDeps (edges : List (String × String)) (cur : List String) :
    ∀ x ∈ cur, x ∈ stepDeps edges cur :=
  fun x hx => (mem_stepDeps _ _ _).mpr (Or.inl hx)

theorem iterate_stepDeps_sound (edges : List (String × String)) (seed : List String) :
    ∀ (n : Nat) (x : String), x ∈ (stepDeps edges)^[n] seed →
      ∃ s ∈ seed, ReachDep edges s x := by
  intro n
  induction n with
  | zero => exact fun x hx => ⟨x, hx, ReachDep.refl x⟩
  | succ n ih =>
    intro x hx
    rw [Function.iterate_succ_apply'] at hx
    rcases (mem_stepDeps _ _ _).mp hx with h1 | ⟨e, he, h1, h2⟩
    · exact ih x h1
    · obtain ⟨s, hs, hr⟩ := ih e.1 h1
      subst h2
      exact ⟨s, hs, ReachDep.tail hr (by rw [Prod.mk.eta]; exact he)⟩

theorem iterate_stepDeps_bound (edges : List (String × String)) (seed : List String) :
    ∀ (n : Nat) (x : String), x ∈ (stepDeps edges)^[n] seed →
      x ∈ seed ∨ x ∈ edges.map Prod.snd := by
  intro n
  induction n with
  | zero => exact fun x hx => Or.inl hx
  | succ n ih =>
    intro x hx
    rw [Function.iterate_succ_apply'] at hx
    rcases (mem_stepDeps _ _ _).mp hx with h1 | ⟨e, he, _, h2⟩
    · exact ih x h1
    · exact Or.inr (List.mem_map.mpr ⟨e, he, h2⟩)

theorem stepDeps_growth (edges : List (String × String)) (cur : List String)
    (hne : stepDeps edges cur ≠ cur) :
    ∃ y, y ∈ stepDeps edges cur ∧ y ∉ cur := by
  by_cases hbatch : (edges.filterMap fun e =>
      if e.1 ∈ cur ∧ ¬ e.2 ∈ cur then some e.2 else none) = []
  · exact absurd (by rw [stepDeps, hbatch, List.append_nil]) hne
  · obtain ⟨y, hy⟩ := List.exists_mem_of_ne_nil _ hbatch
    obtain ⟨e, he, hsome⟩ := List.mem_filterMap.mp hy
    by_cases hc : e.1 ∈ cur ∧ ¬ e.2 ∈ cur
    · rw [if_pos hc] at hsome
      injection hsome with hsome
      subst hsome
      exact ⟨e.2, List.mem_append_right _ hy, hc.2⟩
    · rw [if_neg hc] at hsome
      exact Option.noConfusion hsome

theorem stepDeps_stable_iterate (edges : List (String × String)) (cur : List String)
    (h : stepDeps edges cur = cur) :
    ∀ m, (stepDeps edges)^[m] cur = cur := by
  intro m
  induction m with
  | zero => rfl
  | succ m ih => rw [Function.iterate_succ_apply, h, ih]

theorem depClosure_saturated (edges : List (String × String)) (seed : List String) :
    stepDeps edges (depClosure edges seed) = depClosure edges seed := by
  by_cases hstable : ∃ k, k ≤ edges.length ∧
      stepDeps edges ((stepDeps edges)^[k] seed) = (stepDeps edges)^[k] seed
  · obtain ⟨k, hk, hs⟩ := hstable
    have hrw : depClosure edges seed = (stepDeps edges)^[k] seed := by
      rw [depClosure, show edges.length + 1 = (edges.length + 1 - k) + k from
        (Nat.sub_add_cancel (Nat.le_succ_of_le hk)).symm, Function.iterate_add_apply]
      exact stepDeps_stable_iterate edges _ hs _
    rw [hrw]
    exact hs
  · exfalso
    push_neg at hstable
    have hgrow : ∀ k, k ≤ edges.length + 1 →
        seed.toFinset.card + k ≤ (((stepDeps edges)^[k] seed).toFinset).card := by
      intro k
      induction k with
      | zero => intro _; simp
      | succ k ihk =>
        intro hk1
        have hk : k ≤ edges.length := Nat.lt_succ_iff.mp hk1
        have hne := hstable k hk
        obtain ⟨y, hy1, hy2⟩ := stepDeps_growth edges _ hne
        have hsub : ((stepDeps edges)^[k] seed).toFinset ⊆
            ((stepDeps edges)^[k + 1] seed).toFinset := by
          intro a ha
          rw [List.mem_toFinset] at ha
          rw [List.mem_toFinset, Function.iterate_succ_apply']
          exact subset_stepDeps _ _ a ha
        have hss : ((stepDeps edges)^[k] seed).toFinset ⊂
            ((stepDeps edges)^[k + 1] seed).toFinset := by
          refine ⟨hsub, fun hcontra => ?_⟩
          have hmem : y ∈ ((stepDeps edges)^[k] seed).toFinset := hcontra
            (by rw [List.mem_toFinset, Function.iterate_succ_apply']; exact hy1)
          exact hy2 (List.mem_toFinset.mp hmem)
        have hlt := Finset.card_lt_card hss
        have ihk' := ihk (Nat.le_succ_of_le hk)
        omega
    have hsubU : ((stepDeps edges)^[edges.length + 1] seed).toFinset ⊆
        seed.toFinset ∪ (edges.map Prod.snd).toFinset := by
      intro a ha
      rw [List.mem_toFinset] at ha
      rcases iterate_stepDeps_bound edges seed _ a ha with h | h
      · exact Finset.mem_union_left _ (List.mem_toFinset.mpr h)
      · exact Finset.mem_union_right _ (List.mem_toFinset.mpr h)
    have hupper : (((stepDeps edges)^[edges.length + 1] seed).toFinset).card ≤
        seed.toFinset.card + edges.length := by
      calc (((stepDeps edges)^[edges.length + 1] seed).toFinset).card
          ≤ (seed.toFinset ∪ (edges.map Prod.snd).toFinset).card :=
            Finset.card_le_card hsubU
        _ ≤ seed.toFinset.card + ((edges.map Prod.snd).toFinset).card :=
            Finset.card_union_le _ _
        _ ≤ seed.toFinset.card + (edges.map Prod.snd).length := by
            have := (edges.map Prod.snd).toFinset_card_le
            omega
        _ = seed.toFinset.card + edges.length := by rw [List.length_map]
    have hlow := hgrow (edges.length + 1) (Nat.le_refl _)
    omega

theorem seed_subset_depClosure (edges : List (String × String)) (seed : List String) :
    ∀ x ∈ seed, x ∈ depClosure edges seed := by
  have hall : ∀ n, ∀ x ∈ seed, x ∈ (stepDeps edges)^[n] seed := by
    intro n
    induction n with
    | zero => exact fun x hx => hx
    | succ n ih =>
      intro x hx
      rw [Function.iterate_succ_apply']
      exact subset_stepDeps _ _ x (ih x hx)
  exact hall _

theorem reach_mem_depClosure (edges : List (String × String)) (seed : List String)
    (s x : String) (hs : s ∈ seed) (hr : ReachDep edges s x) :
    x ∈ depClosure edges seed := by
  induction hr with
  | refl => exact seed_subset_depClosure edges seed s hs
  | tail hr' hedge ih =>
    have hmem : _ ∈ stepDeps edges (depClosure edges seed) :=
      (mem_stepDeps _ _ _).mpr (Or.inr ⟨_, hedge, ih, rfl⟩)
    rwa [depClosure_saturated] at hmem

theorem mem_depClosure_iff (edges : List (String × String)) (seed : List String)
    (x : String) :
    x ∈ depClosure edges seed ↔ ∃ s ∈ seed, ReachDep edges s x :=
  ⟨iterate_stepDeps_sound edges seed _ x,
   fun ⟨s, hs, hr⟩ => reach_mem_depClosure edges seed s x hs hr⟩

theorem ReachDep.trans {edges : List (String × String)} {a b c : String}
    (h1 : ReachDep edges a b) (h2 : ReachDep edges b c) : ReachDep edges a c := by
  induction h2 with
  | refl => exact h1
  | tail _ hedge ih => exact ReachDep.tail ih hedge

theorem row2_fields (ig mn : List String) (r : IndexItemRow)
    (hst : r.install_status = 0) (hig : r.ignore = false) :
    (changeStatusRow 0 1 mn (setIgnoreRow ig r)).iid = r.iid ∧
    ((changeStatusRow 0 1 mn (setIgnoreRow ig r)).install_status = 1 ↔
      (r.iid ∈ mn ∧ r.iid ∉ ig)) ∧
    ((changeStatusRow 0 1 mn (setIgnoreRow ig r)).ignore = false ↔ r.iid ∉ ig) := by
  by_cases h1 : r.iid ∈ ig <;> by_cases h2 : r.iid ∈ mn <;>
    simp [setIgnoreRow, changeStatusRow, h1, h2, hst, hig]

theorem row4_fields (ig mn L up : List String) (r : IndexItemRow)
    (hst : r.install_status = 0) (hig : r.ignore = false) :
    (changeStatusRow 0 2 up (changeStatusRow 0 3 L (changeStatusRow 0 1 mn
      (setIgnoreRow ig r)))).iid = r.iid ∧
    ((changeStatusRow 0 2 up (changeStatusRow 0 3 L (changeStatusRow 0 1 mn
      (setIgnoreRow ig r)))).install_status = 2 ↔
      (r.iid ∈ up ∧ r.iid ∉ ig ∧ r.iid ∉ mn ∧ r.iid ∉ L)) ∧
    ((changeStatusRow 0 2 up (changeStatusRow 0 3 L (changeStatusRow 0 1 mn
      (setIgnoreRow ig r)))).ignore = false ↔ r.iid ∉ ig) := by
  by_cases h1 : r.iid ∈ ig <;> by_cases h2 : r.iid ∈ mn <;> by_cases h3 : r.iid ∈ L <;>
    by_cases h4 : r.iid ∈ up <;>
    simp [setIgnoreRow, changeStatusRow, h1, h2, h3, h4, hst, hig]

theorem rowFinal_fields (ig mn L up M : List String) (r : IndexItemRow)
    (hst : r.install_status = 0) (hig : r.ignore = false) :
    (changeStatusRow 0 3 M (changeStatusRow 0 2 up (changeStatusRow 0 3 L
      (changeStatusRow 0 1 mn (setIgnoreRow ig r))))).iid = r.iid ∧
    ((1 ≤ (changeStatusRow 0 3 M (changeStatusRow 0 2 up (changeStatusRow 0 3 L
        (changeStatusRow 0 1 mn (setIgnoreRow ig r))))).install_status ∧
      (changeStatusRow 0 3 M (changeStatusRow 0 2 up (changeStatusRow 0 3 L
        (changeStatusRow 0 1 mn (setIgnoreRow ig r))))).install_status ≤ 3 ∧
      (changeStatusRow 0 3 M (changeStatusRow 0 2 up (changeStatusRow 0 3 L
        (changeStatusRow 0 1 mn (setIgnoreRow ig r))))).ignore = false) ↔
      (r.iid ∉ ig ∧ (r.iid ∈ mn ∨ r.iid ∈ L ∨ r.iid ∈ up ∨ r.iid ∈ M))) := by
  by_cases h1 : r.iid ∈ ig <;> by_cases h2 : r.iid ∈ mn <;> by_cases h3 : r.iid ∈ L <;>
    by_cases h4 : r.iid ∈ up <;> by_cases h5 : r.iid ∈ M <;>
    simp [setIgnoreRow, changeStatusRow, h1, h2, h3, h4, h5, hst, hig]

theorem mem_get_iids_by_status (db : ItemsDB) (mn mx : Int) (x : String) :
    x ∈ get_iids_by_status db mn mx ↔
      ∃ r ∈ db.items, r.iid = x ∧ mn ≤ r.install_status ∧ r.install_status ≤ mx ∧
        r.ignore = false := by
  constructor
  · intro hx
    obtain ⟨a, ha, hax⟩ := List.mem_map.mp hx
    obtain ⟨ha1, ha2⟩ := List.mem_filter.mp ha
    simp only [decide_eq_true_eq] at ha2
    exact ⟨a, ha1, hax, ha2.1, ha2.2.1, ha2.2.2⟩
  · rintro ⟨r, hr, hiid, h1, h2, h3⟩
    refine List.mem_map.mpr ⟨r, List.mem_filter.mpr ⟨hr, ?_⟩, hiid⟩
    simp only [decide_eq_true_eq]
    exact ⟨h1, h2, h3⟩

theorem planner_main_seeds_char (db : ItemsDB) (ig mn : List String)
    (hfresh : ∀ r ∈ db.items, r.install_status = 0 ∧ r.ignore = false) (x : String) :
    x ∈ (((change_status_of_iids_to_another_status (set_ignore_iids db ig) 0 1 mn).items.filter
        (fun r => r.install_status = 1 ∧ r.ignore = false)).map (·.iid)) ↔
      ((∃ r ∈ db.items, r.iid = x) ∧ x ∈ mn ∧ x ∉ ig) := by
  constructor
  · intro hx
    obtain ⟨a, ha, hax⟩ := List.mem_map.mp hx
    obtain ⟨ha1, ha2⟩ := List.mem_filter.mp ha
    simp only [decide_eq_true_eq] at ha2
    obtain ⟨b, hb, hba⟩ := List.mem_map.mp ha1
    obtain ⟨r, hr, hrb⟩ := List.mem_map.mp hb
    obtain ⟨hst, hig⟩ := hfresh r hr
    have hf := row2_fields ig mn r hst hig
    rw [← hrb] at hba
    rw [← hba] at ha2 hax
    rw [hf.1] at hax
    exact ⟨⟨r, hr, hax⟩, by rw [← hax]; exact (hf.2.1.mp ha2.1).1,
      by rw [← hax]; exact hf.2.2.mp ha2.2⟩
  · rintro ⟨⟨r, hr, rfl⟩, hmn, hnig⟩
    obtain ⟨hst, hig⟩ := hfresh r hr
    have hf := row2_fields ig mn r hst hig
    refine List.mem_map.mpr ⟨changeStatusRow 0 1 mn (setIgnoreRow ig r),
      List.mem_filter.mpr ⟨?_, ?_⟩, hf.1⟩
    · exact List.mem_map.mpr ⟨setIgnoreRow ig r, List.mem_map.mpr ⟨r, hr, rfl⟩, rfl⟩
    · simp only [decide_eq_true_eq]
      exact ⟨hf.2.1.mpr ⟨hmn, hnig⟩, hf.2.2.mpr hnig⟩

theorem planner_update_seeds_char (db : ItemsDB) (ig mn L up : List String)
    (hfresh : ∀ r ∈ db.items, r.install_status = 0 ∧ r.ignore = false) (x : String) :
    x ∈ (((change_status_of_iids_to_another_status (change_status_of_iids_to_another_status
        (change_status_of_iids_to_another_status (set_ignore_iids db ig) 0 1 mn) 0 3 L)
        0 2 up).items.filter
        (fun r => r.install_status = 2 ∧ r.ignore = false)).map (·.iid)) ↔
      ((∃ r ∈ db.items, r.iid = x) ∧ x ∈ up ∧ x ∉ ig ∧ x ∉ mn ∧ x ∉ L) := by
  constructor
  · intro hx
    obtain ⟨a, ha, hax⟩ := List.mem_map.mp hx
    obtain ⟨ha1, ha2⟩ := List.mem_filter.mp ha
    simp only [decide_eq_true_eq] at ha2
    obtain ⟨b3, hb3, hb3a⟩ := List.mem_map.mp ha1
    obtain ⟨b2, hb2, hb2a⟩ := List.mem_map.mp hb3
    obtain ⟨b1, hb1, hb1a⟩ := List.mem_map.mp hb2
    obtain ⟨r, hr, hrb⟩ := List.mem_map.mp hb1
    obtain ⟨hst, hig⟩ := hfresh r hr
    have hf := row4_fields ig mn L up r hst hig
    rw [← hrb] at hb1a
    rw [← hb1a] at hb2a
    rw [← hb2a] at hb3a
    rw [← hb3a] at ha2 hax
    rw [hf.1] at hax
    refine ⟨⟨r, hr, hax⟩, ?_⟩
    rw [← hax]
    have h2 := hf.2.1.mp ha2.1
    exact ⟨h2.1, h2.2.1, h2.2.2.1, h2.2.2.2⟩
  · rintro ⟨⟨r, hr, rfl⟩, hup, hnig, hnmn, hnL⟩
    obtain ⟨hst, hig⟩ := hfresh r hr
    have hf := row4_fields ig mn L up r hst hig
    refine List.mem_map.mpr ⟨changeStatusRow 0 2 up (changeStatusRow 0 3 L
      (changeStatusRow 0 1 mn (setIgnoreRow ig r))), List.mem_filter.mpr ⟨?_, ?_⟩, hf.1⟩
    · refine List.mem_map.mpr ⟨changeStatusRow 0 3 L
        (changeStatusRow 0 1 mn (setIgnoreRow ig r)), ?_, rfl⟩
      refine List.mem_map.mpr ⟨changeStatusRow 0 1 mn (setIgnoreRow ig r), ?_, rfl⟩
      exact List.mem_map.mpr ⟨setIgnoreRow ig r, List.mem_map.mpr ⟨r, hr, rfl⟩, rfl⟩
    · simp only [decide_eq_true_eq]
      exact ⟨hf.2.1.mpr ⟨hup, hnig, hnmn, hnL⟩, hf.2.2.mpr hnig⟩

theorem mem_items_five (db : ItemsDB) (ig mn L up M : List String) (a : IndexItemRow) :
    a ∈ (change_status_of_iids_to_another_status
          (change_status_of_iids_to_another_status
            (change_status_of_iids_to_another_status
              (change_status_of_iids_to_another_status (set_ignore_iids db ig) 0 1 mn)
              0 3 L) 0 2 up) 0 3 M).items ↔
      ∃ r ∈ db.items, a = changeStatusRow 0 3 M (changeStatusRow 0 2 up
        (changeStatusRow 0 3 L (changeStatusRow 0 1 mn (setIgnoreRow ig r)))) := by
  simp only [change_status_of_iids_to_another_status, set_ignore_iids, List.map_map,
    List.mem_map, Function.comp]
  constructor
  · rintro ⟨r, hr, rfl⟩
    exact ⟨r, hr, rfl⟩
  · rintro ⟨r, hr, rfl⟩
    exact ⟨r, hr, rfl⟩

/-- C1 (amended): after the planning pass on a freshly read item table, an
index item `x` is in the final install set (`install_status ∈ {main, update,
depend}`, `ignore = 0`) iff `x` is not ignored and `x` is reachable over
active `depends` details from some **non-ignored** item of the main or update
cohorts.  (The claim as stated — without requiring the cohort member itself
to be non-ignored — fails: an ignored cohort member never obtains a status,
so the dependency closure never starts from it.) -/
theorem c1_install_set_characterisation (db : ItemsDB)
    (ignored main update : List String)
    (hfresh : ∀ r ∈ db.items, r.install_status = 0 ∧ r.ignore = false) (x : String) :
    x ∈ (calculate_all_install_items db ignored main update).2 ↔
      ((∃ r ∈ db.items, r.iid = x) ∧ x ∉ ignored ∧
        ∃ s, s ∈ main ++ update ∧ s ∉ ignored ∧ (∃ r ∈ db.items, r.iid = s) ∧
          ReachDep (dependsEdges db.details) s x) := by
  set db2 := change_status_of_iids_to_another_status (set_ignore_iids db ignored)
    0 1 main with hdb2
  set L := get_recursive_dependencies db2 1 with hLdef
  set db3 := change_status_of_iids_to_another_status db2 0 3 L with hdb3
  set db4 := change_status_of_iids_to_another_status db3 0 2 update with hdb4
  set M := get_recursive_dependencies db4 2 with hMdef
  set db5 := change_status_of_iids_to_another_status db4 0 3 M with hdb5
  have hcalc : (calculate_all_install_items db ignored main update).2 =
      get_iids_by_status db5 1 3 := by
    rw [hdb5, hMdef, hdb4, hdb3, hLdef, hdb2]
    rfl
  have hmem5 : ∀ a : IndexItemRow, a ∈ db5.items ↔ ∃ r ∈ db.items,
      a = changeStatusRow 0 3 M (changeStatusRow 0 2 update (changeStatusRow 0 3 L
        (changeStatusRow 0 1 main (setIgnoreRow ignored r)))) := by
    intro a
    rw [hdb5, hdb4, hdb3, hdb2]
    exact mem_items_five db ignored main L update M a
  have hseed1 : ∀ s, s ∈ ((db2.items.filter
      (fun r => r.install_status = 1 ∧ r.ignore = false)).map (·.iid)) ↔
      ((∃ r ∈ db.items, r.iid = s) ∧ s ∈ main ∧ s ∉ ignored) := by
    intro s
    rw [hdb2]
    exact planner_main_seeds_char db ignored main hfresh s
  have hseed2 : ∀ s, s ∈ ((db4.items.filter
      (fun r => r.install_status = 2 ∧ r.ignore = false)).map (·.iid)) ↔
      ((∃ r ∈ db.items, r.iid = s) ∧ s ∈ update ∧ s ∉ ignored ∧ s ∉ main ∧ s ∉ L) := by
    intro s
    rw [hdb4, hdb3, hdb2]
    exact planner_update_seeds_char db ignored main L update hfresh s
  have hLiff : ∀ y, y ∈ L ↔ ∃ s, ((∃ r ∈ db.items, r.iid = s) ∧ s ∈ main ∧
      s ∉ ignored) ∧ ReachDep (dependsEdges db.details) s y := by
    intro y
    have h0 : y ∈ L ↔ ∃ s ∈ ((db2.items.filter
        (fun r => r.install_status = 1 ∧ r.ignore = false)).map (·.iid)),
        ReachDep (dependsEdges db.details) s y := by
      rw [hLdef]
      exact mem_depClosure_iff (dependsEdges db.details) _ y
    rw [h0]
    constructor
    · rintro ⟨s, hs, hr⟩
      exact ⟨s, (hseed1 s).mp hs, hr⟩
    · rintro ⟨s, hsp, hr⟩
      exact ⟨s, (hseed1 s).mpr hsp, hr⟩
  have hMiff : ∀ y, y ∈ M ↔ ∃ s, ((∃ r ∈ db.items, r.iid = s) ∧ s ∈ update ∧
      s ∉ ignored ∧ s ∉ main ∧ s ∉ L) ∧ ReachDep (dependsEdges db.details) s y := by
    intro y
    have h0 : y ∈ M ↔ ∃ s ∈ ((db4.items.filter
        (fun r => r.install_status = 2 ∧ r.ignore = false)).map (·.iid)),
        ReachDep (dependsEdges db.details) s y := by
      rw [hMdef]
      exact mem_depClosure_iff (dependsEdges db.details) _ y
    rw [h0]
    constructor
    · rintro ⟨s, hs, hr⟩
      exact ⟨s, (hseed2 s).mp hs, hr⟩
    · rintro ⟨s, hsp, hr⟩
      exact ⟨s, (hseed2 s).mpr hsp, hr⟩
  rw [hcalc, mem_get_iids_by_status]
  constructor
  · rintro ⟨a, ha, hiid, h1, h2, h3⟩
    obtain ⟨r, hr, rfl⟩ := (hmem5 a).mp ha
    obtain ⟨hst, hig⟩ := hfresh r hr
    have hf := rowFinal_fields ignored main L update M r hst hig
    have hx : r.iid = x := by
      rw [← hf.1]
      exact hiid
    have hcond := hf.2.mp ⟨h1, h2, h3⟩
    subst hx
    refine ⟨⟨r, hr, rfl⟩, hcond.1, ?_⟩
    rcases hcond.2 with hmn | hL | hup | hM
    · exact ⟨r.iid, List.mem_append_left _ hmn, hcond.1, ⟨r, hr, rfl⟩,
        ReachDep.refl _⟩
    · obtain ⟨s, ⟨hsitem, hsmn, hsnig⟩, hreach⟩ := (hLiff r.iid).mp hL
      exact ⟨s, List.mem_append_left _ hsmn, hsnig, hsitem, hreach⟩
    · exact ⟨r.iid, List.mem_append_right _ hup, hcond.1, ⟨r, hr, rfl⟩,
        ReachDep.refl _⟩
    · obtain ⟨s, ⟨hsitem, hsup, hsnig, _, _⟩, hreach⟩ := (hMiff r.iid).mp hM
      exact ⟨s, List.mem_append_right _ hsup, hsnig, hsitem, hreach⟩
  · rintro ⟨⟨r, hr, rfl⟩, hnig, s, hs, hsnig, hsitem, hreach⟩
    obtain ⟨hst, hig⟩ := hfresh r hr
    have hf := rowFinal_fields ignored main L update M r hst hig
    have hdisj : r.iid ∈ main ∨ r.iid ∈ L ∨ r.iid ∈ update ∨ r.iid ∈ M := by
      rcases List.mem_append.mp hs with hsm | hsu
      · exact Or.inr (Or.inl ((hLiff r.iid).mpr ⟨s, ⟨hsitem, hsm, hsnig⟩, hreach⟩))
      · by_cases hxL : r.iid ∈ L
        · exact Or.inr (Or.inl hxL)
        · by_cases hsL : s ∈ L
          · obtain ⟨s0, hs0p, hr0⟩ := (hLiff s).mp hsL
            exact Or.inr (Or.inl ((hLiff r.iid).mpr
              ⟨s0, hs0p, ReachDep.trans hr0 hreach⟩))
          · by_cases hsmn : s ∈ main
            · have hcontra : s ∈ L := (hLiff s).mpr
                ⟨s, ⟨hsitem, hsmn, hsnig⟩, ReachDep.refl s⟩
              exact absurd hcontra hsL
            · exact Or.inr (Or.inr (Or.inr ((hMiff r.iid).mpr
                ⟨s, ⟨hsitem, hsu, hsnig, hsmn, hsL⟩, hreach⟩)))
    refine ⟨changeStatusRow 0 3 M (changeStatusRow 0 2 update (changeStatusRow 0 3 L
      (changeStatusRow 0 1 main (setIgnoreRow ignored r)))),
      (hmem5 _).mpr ⟨r, hr, rfl⟩, hf.1, ?_⟩
    have hc := hf.2.mpr ⟨hnig, hdisj⟩
    exact ⟨hc.1, hc.2.1, hc.2.2⟩

/-- C1 (counterexample): the claim as stated — install set membership iff
reachability from some cohort member, minus the ignored items — fails when a
cohort member is itself ignored.  With items `A`, `B`, `A depends: B`,
`main = [A]` and `ignored = [A]`: `B` is reachable from the cohort member `A`
and is not ignored, yet the ignored `A` never obtains status `main`, so the
closure never starts from it and `B` stays out of the install set. -/
theorem c1_counterexample_ignored_cohort_member :
    ¬ ∀ (db : ItemsDB) (ignored main update : List String),
        (∀ r ∈ db.items, r.install_status = 0 ∧ r.ignore = false) →
        ∀ x, x ∈ (calculate_all_install_items db ignored main update).2 ↔
          ((∃ r ∈ db.items, r.iid = x) ∧ x ∉ ignored ∧
            ∃ s, s ∈ main ++ update ∧ (∃ r ∈ db.items, r.iid = s) ∧
              ReachDep (dependsEdges db.details) s x) := by
  intro hclaim
  have hrhs : (∃ r ∈ c1ExampleDB.items, r.iid = "B") ∧ "B" ∉ ["A"] ∧
      ∃ s, s ∈ ["A"] ++ ([] : List String) ∧ (∃ r ∈ c1ExampleDB.items, r.iid = s) ∧
        ReachDep (dependsEdges c1ExampleDB.details) s "B" := by
    refine ⟨by decide, by decide, "A", by decide, by decide, ?_⟩
    exact ReachDep.tail (ReachDep.refl "A") (by decide)
  have hmem := (hclaim c1ExampleDB ["A"] ["A"] [] (by decide) "B").mpr hrhs
  have hnot : ¬ "B" ∈ (calculate_all_install_items c1ExampleDB ["A"] ["A"] []).2 := by
    decide
  exact hnot hmem

/-- C1 witness: in the concrete index `A depends: B` with `main = [A]` and
nothing ignored, `B` ends in the install set — it is reachable from the
non-ignored cohort member `A`. -/
theorem c1_install_set_characterisation_witness :
    "B" ∈ (calculate_all_install_items c1ExampleDB [] ["A"] []).2 :=
  (c1_install_set_characterisation c1ExampleDB [] ["A"] [] (by decide) "B").mpr
    ⟨by decide, by decide, "A", by decide, by decide, by decide,
      ReachDep.tail (ReachDep.refl "A") (by decide)⟩
